import Mathlib

/-!
Verification of the Metro-submit constraint encoder (src/encode.py) and
solution decoder (src/decode.py).

The Python programs are shallowly embedded below.  `encode.py` reads an
already-parsed problem description (grid size N×M, K line start/end pairs,
turn budget J, mode, popular cells), allocates SAT variables through
`new_var` (a dict from symbolic name to the next dense integer id), emits
clauses for occupancy-uniqueness, edge/location consistency, path
continuity (degree constraints), turn definition and counting, start
reachability, and popular-cell coverage, and finally writes a DIMACS file
and a variable-map JSON.  `decode.py` reads the variable map and a solver
output, extracts the true edge variables, and reconstructs one path per
line by breadth-first search.

Python dicts preserve insertion order; association lists are used for
them here.  Machine integers are modelled as `Int`/`Nat` (Python ints are
unbounded, so no wrap-around modelling is needed).
-/

namespace Metro

/-- The four movement directions, `DIRS` in encode.py. -/
inductive Dir where
  | R | L | U | D
deriving DecidableEq, Repr, Fintype

/-- `DIRS_LIST = ['R','L','U','D']`. -/
def DIRS_LIST : List Dir := [Dir.R, Dir.L, Dir.U, Dir.D]

/-- x-offset of a direction (`DIRS` in encode.py). -/
def dirDx : Dir → Int
  | Dir.R => 1
  | Dir.L => -1
  | Dir.U => 0
  | Dir.D => 0

/-- y-offset of a direction (`DIRS` in encode.py). -/
def dirDy : Dir → Int
  | Dir.R => 0
  | Dir.L => 0
  | Dir.U => -1
  | Dir.D => 1

/-- `REV_DIRS` in encode.py. -/
def revDir : Dir → Dir
  | Dir.R => Dir.L
  | Dir.L => Dir.R
  | Dir.U => Dir.D
  | Dir.D => Dir.U

/-- `STRAIGHT_PAIRS = {('R','L'),('L','R'),('U','D'),('D','U')}`. -/
def isStraightPair (d1 d2 : Dir) : Bool :=
  match d1, d2 with
  | Dir.R, Dir.L => true
  | Dir.L, Dir.R => true
  | Dir.U, Dir.D => true
  | Dir.D, Dir.U => true
  | _, _ => false

/-- The symbolic variable names of encode.py:
`L_{k}_{x}_{y}`, `T_{k}_{x}_{y}`, `S_{k}_{x}_{y}`, `E_{k}_{x}_{y}_{D}` and
the sequential-counter auxiliaries `s_k{k}_{i}_{j}`.  The five textual
families are pairwise distinct strings, so the structured form below is a
faithful rendering of the name space. -/
inductive VName where
  | Lv (k : Nat) (x y : Int)
  | Tv (k : Nat) (x y : Int)
  | Sv (k : Nat) (x y : Int)
  | Ev (k : Nat) (x y : Int) (d : Dir)
  | Cnt (k i j : Nat)
deriving DecidableEq, Repr

/-- Association-list lookup (dict access keyed by symbolic name). -/
def assocFind : List (VName × Nat) → VName → Option Nat
  | [], _ => none
  | (m, v) :: rest, n => if m = n then some v else assocFind rest n

/-- The mutable encoder state of encode.py: `var_to_id` (insertion-ordered
dict) and `next_var`.  `id_to_var` is the pointwise inverse and is derived
below. -/
structure Enc where
  varToId : List (VName × Nat)
  nextVar : Nat
deriving Repr

/-- `new_var(name)`: return the existing id or allocate the next one. -/
def newVar (st : Enc) (n : VName) : Enc :=
  match assocFind st.varToId n with
  | some _ => st
  | none => { varToId := st.varToId ++ [(n, st.nextVar)], nextVar := st.nextVar + 1 }

/-- The parsed problem description (the data read in encode.py lines
34-69).  `K` is the length of `lines`; the parser reads exactly `K`
start/end quadruples. -/
structure Problem where
  N : Int
  M : Int
  J : Nat
  mode : Nat
  lines : List ((Int × Int) × (Int × Int))
  popular : List (Int × Int)

/-- `range(n)` over a Python int (empty for n ≤ 0). -/
def intRange (n : Int) : List Int := (List.range n.toNat).map Int.ofNat

/-- `0 <= x < N and 0 <= y < M`. -/
def inGrid (p : Problem) (x y : Int) : Bool :=
  decide (0 ≤ x) && decide (x < p.N) && decide (0 ≤ y) && decide (y < p.M)

/-- Whether the step from (x,y) in direction d stays in the grid, i.e.
whetherE_{k}_{x}_{y}_{d} is instantiated for an in-grid (x,y). -/
def inGridStep (p : Problem) (x y : Int) (d : Dir) : Bool :=
  inGrid p (x + dirDx d) (y + dirDy d)

/-- The cell enumeration order of the nested loops
`for x in range(N): for y in range(M):`. -/
def cellList (p : Problem) : List (Int × Int) :=
  (intRange p.N).flatMap (fun x => (intRange p.M).map (fun y => (x, y)))

/-- The `new_var` calls made for line k at cell (x,y) in source order:
`L`, then `T` (non-endpoint cells only), then `S`, then the in-grid `E`
variables in `DIRS_LIST` order (encode.py lines 162-181). -/
def cellNames (p : Problem) (k : Nat) (s t : Int × Int) (x y : Int) : List VName :=
  [VName.Lv k x y] ++
  (if (x, y) = s ∨ (x, y) = t then [] else [VName.Tv k x y]) ++
  [VName.Sv k x y] ++
  (DIRS_LIST.filter (fun d => inGridStep p x y d)).map (fun d => VName.Ev k x y d)

/-- All `new_var` calls of the variable-definition phase, in order. -/
def buildNames (p : Problem) : List VName :=
  p.lines.enum.flatMap (fun ksp =>
    (cellList p).flatMap (fun c => cellNames p ksp.1 ksp.2.1 ksp.2.2 c.1 c.2))

/-- The non-endpoint cells of line k in `T_vars` insertion order (for a
fixed k this is the cell order of the variable-definition loop). -/
def tCells (p : Problem) (s t : Int × Int) : List (Int × Int) :=
  (cellList p).filter (fun c => ¬(c = s) ∧ ¬(c = t))

/-- The counter auxiliaries allocated by `add_at_most_k_constraint` for
line k (prefix `s_k{k}`): an n×(J+1) matrix, allocated row-major,
only when the turn list is non-empty and longer than J
(encode.py lines 104-118 and 216-217). -/
def counterNames (p : Problem) : List VName :=
  p.lines.enum.flatMap (fun ksp =>
    let n := (tCells p ksp.2.1 ksp.2.2).length
    if n = 0 then []
    else if n ≤ p.J then []
    else (List.range n).flatMap (fun i =>
      (List.range (p.J + 1)).map (fun j => VName.Cnt ksp.1 i j)))

/-- Every `new_var` call of the whole encoder, in call order. -/
def allNames (p : Problem) : List VName := buildNames p ++ counterNames p

/-- The final variable table: fold `new_var` over all allocation calls,
starting from the empty dict with `next_var = 1`. -/
def finalEnc (p : Problem) : Enc := (allNames p).foldl newVar { varToId := [], nextVar := 1 }

/-- The integer id of a symbolic name after encoding.  All names used in
clauses are allocated before or at their first clause use and `new_var`
never reassigns, so the final table agrees with the id seen at emission
time.  (Missing names — which do not occur for the names the emission
phases reference — default to 0.) -/
def vid (p : Problem) (n : VName) : Nat := (assocFind (finalEnc p).varToId n).getD 0

/-- `itertools.combinations`, producing subsequences of length r in the
same (lexicographic-by-position) order. -/
def combos : List Nat → Nat → List (List Nat)
  | _, 0 => [[]]
  | [], _ + 1 => []
  | x :: xs, r + 1 => (combos xs r).map (fun sub => x :: sub) ++ combos xs (r + 1)

/-- `at_most_one(var_list)`: the pairwise exclusion clauses, in the nested
loop order of encode.py lines 89-92. -/
def atMostOne : List Nat → List (List Int)
  | [] => []
  | v :: rest => rest.map (fun w => [-(v : Int), -(w : Int)]) ++ atMostOne rest

/-- `exactly_k_if_L(l_var, e_vars, k)` (encode.py lines 94-101).
Python computes `combinations(e_vars, n - k + 1)`; `n + 1 - k` is the
same number whenever n + 1 ≥ k, and the only case with n + 1 < k is
n = 0, k = 2, which is unreachable here: a cell with zero in-grid
neighbours only exists on a 1×1 grid, where the unique cell is an
endpoint of every line whose endpoints are in-grid. -/
def exactlyKifL (l : Nat) (evars : List Nat) (k : Nat) : List (List Int) :=
  (if k < evars.length then
    (combos evars (k + 1)).map (fun sub => -(l : Int) :: sub.map (fun v => -(Int.ofNat v)))
  else []) ++
  (if 0 < k then
    (combos evars (evars.length + 1 - k)).map (fun sub => -(l : Int) :: sub.map Int.ofNat)
  else [])

/-- The ids of the incident in-grid edge variables of line k at (x,y),
in `DIRS_LIST` order (encode.py line 243). -/
def incidentEdgeIds (p : Problem) (k : Nat) (x y : Int) : List Nat :=
  (DIRS_LIST.filter (fun d => inGridStep p x y d)).map (fun d => vid p (VName.Ev k x y d))

/-- `cells_lines[(x,y)]`: the `L` ids of every line at cell (x,y), in
line order (each line appends during the variable-definition loop). -/
def cellsLines (p : Problem) (x y : Int) : List Nat :=
  (List.range p.lines.length).map (fun k => vid p (VName.Lv k x y))

/-- `enforce_unique_occupancy`: `cells_lines` holds an entry for every
in-grid cell exactly when K ≥ 1; pairwise exclusions are emitted for
entries with more than one occupant id. -/
def uniqueOccClauses (p : Problem) : List (List Int) :=
  if p.lines.length = 0 then []
  else (cellList p).flatMap (fun c =>
    if 1 < (cellsLines p c.1 c.2).length then atMostOne (cellsLines p c.1 c.2) else [])

/-- The `E_vars` keys in insertion order (k-major, then cell order, then
direction order). -/
def eKeys (p : Problem) : List (Nat × Int × Int × Dir) :=
  (List.range p.lines.length).flatMap (fun k =>
    (cellList p).flatMap (fun c =>
      (DIRS_LIST.filter (fun d => inGridStep p c.1 c.2 d)).map (fun d => (k, c.1, c.2, d))))

/-- `enforce_edge_location_consistency` (encode.py lines 268-291).  The
reverse edge variable `E_{k}_{nx}_{ny}_{rev}` exists exactly when its own
destination — the original cell (x,y) — is in-grid, which always holds
for an `E_vars` key, so the `else` branch forcing the edge false is dead
code; it is kept for fidelity. -/
def edgeLocClauses (p : Problem) : List (List Int) :=
  (eKeys p).flatMap (fun q =>
    let k := q.1
    let x := q.2.1
    let y := q.2.2.1
    let d := q.2.2.2
    let e := vid p (VName.Ev k x y d)
    let nx := x + dirDx d
    let ny := y + dirDy d
    [[-(e : Int), (vid p (VName.Lv k x y) : Int)],
     [-(e : Int), (vid p (VName.Lv k nx ny) : Int)]] ++
    (if inGrid p x y then
      [[-(e : Int), (vid p (VName.Ev k nx ny (revDir d)) : Int)],
       [-(vid p (VName.Ev k nx ny (revDir d)) : Int), (e : Int)]]
    else [[-(e : Int)]]))

/-- `enforce_path_continuity` (encode.py lines 227-250): endpoint
activation units, then per cell the degree constraints (exactly 1 at the
endpoints, exactly 2 elsewhere plus edge-implies-occupied units). -/
def pathContClauses (p : Problem) : List (List Int) :=
  p.lines.enum.flatMap (fun ksp =>
    let k := ksp.1
    let s := ksp.2.1
    let t := ksp.2.2
    [[(vid p (VName.Lv k s.1 s.2) : Int)], [(vid p (VName.Lv k t.1 t.2) : Int)]] ++
    (cellList p).flatMap (fun c =>
      let l := vid p (VName.Lv k c.1 c.2)
      let inc := incidentEdgeIds p k c.1 c.2
      if c = s ∨ c = t then exactlyKifL l inc 1
      else exactlyKifL l inc 2 ++ inc.map (fun e => [(l : Int), -(e : Int)])))

/-- The ordered direction pairs produced by the nested loops over
`DIRS_LIST[:-1]` and the later indices (encode.py lines 201-203). -/
def dirPairs : List (Dir × Dir) :=
  [(Dir.R, Dir.L), (Dir.R, Dir.U), (Dir.R, Dir.D),
   (Dir.L, Dir.U), (Dir.L, Dir.D), (Dir.U, Dir.D)]

/-- The turn-definition clauses for line k (encode.py lines 192-214):
turn implies occupied, and for each existing incident pair the
perpendicular/collinear implication. -/
def turnDefClauses (p : Problem) (k : Nat) (s t : Int × Int) : List (List Int) :=
  (tCells p s t).flatMap (fun c =>
    let tv := vid p (VName.Tv k c.1 c.2)
    let l := vid p (VName.Lv k c.1 c.2)
    [[-(tv : Int), (l : Int)]] ++
    dirPairs.flatMap (fun dd =>
      if inGridStep p c.1 c.2 dd.1 ∧ inGridStep p c.1 c.2 dd.2 then
        let e1 := vid p (VName.Ev k c.1 c.2 dd.1)
        let e2 := vid p (VName.Ev k c.1 c.2 dd.2)
        if isStraightPair dd.1 dd.2 then
          [[-(l : Int), -(e1 : Int), -(e2 : Int), -(tv : Int)]]
        else
          [[-(l : Int), -(e1 : Int), -(e2 : Int), (tv : Int)]]
      else []))

/-- `turn_vars_for_line`: the T ids of line k in collection order. -/
def turnVarIds (p : Problem) (k : Nat) (s t : Int × Int) : List Nat :=
  (tCells p s t).map (fun c => vid p (VName.Tv k c.1 c.2))

/-- The clauses of `add_at_most_k_constraint(variables, k)` for the case
`len(variables) > k` (encode.py lines 104-153), with `s` the id of the
auxiliary matrix cell (i,j): base row seeding, per-row carry and
increment clauses, and the final top-right prohibition. -/
def counterClauses (vars : List Nat) (s : Nat → Nat → Nat) (k : Nat) : List (List Int) :=
  ([[-(vars.headD 0 : Int), (s 0 0 : Int)]] ++
   (List.range k).map (fun j => [-(s 0 (j + 1) : Int)])) ++
  (List.range (vars.length - 1)).flatMap (fun i0 =>
    let i := i0 + 1
    (List.range (k + 1)).map (fun j => [-(s (i - 1) j : Int), (s i j : Int)]) ++
    [[-(vars.getD i 0 : Int), (s i 0 : Int)]] ++
    (List.range k).map (fun j0 =>
      [-(vars.getD i 0 : Int), -(s (i - 1) j0 : Int), (s i (j0 + 1) : Int)])) ++
  [[-(s (vars.length - 1) k : Int)]]

/-- `enforce_turn_constraints` (encode.py lines 185-217): per line the
turn-definition clauses, then — when the turn list is non-empty —
`add_at_most_k_constraint`, which emits nothing when the list is short
enough. -/
def turnClauses (p : Problem) : List (List Int) :=
  p.lines.enum.flatMap (fun ksp =>
    let k := ksp.1
    turnDefClauses p k ksp.2.1 ksp.2.2 ++
    (let tv := turnVarIds p k ksp.2.1 ksp.2.2
     if tv = [] then []
     else if tv.length ≤ p.J then []
     else counterClauses tv (fun i j => vid p (VName.Cnt k i j)) p.J))

/-- `enforce_path_connectivity` (encode.py lines 293-315): the start
reach unit, the reach propagation clauses along every edge variable, and
occupied-implies-reach for every cell. -/
def connClauses (p : Problem) : List (List Int) :=
  p.lines.enum.flatMap (fun ksp =>
    let k := ksp.1
    let s := ksp.2.1
    [[(vid p (VName.Sv k s.1 s.2) : Int)]] ++
    (cellList p).flatMap (fun c =>
      (DIRS_LIST.filter (fun d => inGridStep p c.1 c.2 d)).map (fun d =>
        [-(vid p (VName.Sv k c.1 c.2) : Int),
         -(vid p (VName.Ev k c.1 c.2 d) : Int),
         (vid p (VName.Sv k (c.1 + dirDx d) (c.2 + dirDy d)) : Int)])) ++
    (cellList p).map (fun c =>
      [-(vid p (VName.Lv k c.1 c.2) : Int), (vid p (VName.Sv k c.1 c.2) : Int)]))

/-- `enforce_popular_cell_constraint` (encode.py lines 252-266): mode-2
only; per popular cell either the occupant disjunction, or — when
`cells_lines` has no entry for it (out-of-grid cell, or K = 0) — the
deliberately contradictory pair [1], [-1]. -/
def popClauses (p : Problem) : List (List Int) :=
  if p.mode ≠ 2 ∨ p.popular = [] then []
  else p.popular.flatMap (fun c =>
    let vids := if inGrid p c.1 c.2 ∧ p.lines.length ≠ 0 then cellsLines p c.1 c.2 else []
    if vids ≠ [] then [vids.map Int.ofNat] else [[1], [-1]])

/-- All emitted clauses, in the order of `apply_all_constraints`. -/
def allClauses (p : Problem) : List (List Int) :=
  uniqueOccClauses p ++ edgeLocClauses p ++ pathContClauses p ++
  turnClauses p ++ connClauses p ++ popClauses p

/-- The encoder result: variable table, next free id, ordered clauses. -/
structure EncOut where
  varToId : List (VName × Nat)
  nextVar : Nat
  clauses : List (List Int)
deriving DecidableEq

/-- All line endpoints in-grid.  When this fails, encode.py dies with an
uncaught KeyError (`L_vars[(k, start...)]` in `enforce_path_continuity`,
line 234) and writes no output; that abnormal termination is modelled as
`none`. -/
def endpointsInGrid (p : Problem) : Bool :=
  p.lines.all (fun sp =>
    inGrid p sp.1.1 sp.1.2 && inGrid p sp.2.1 sp.2.2)

/-- The whole encoder run: `some` output, or `none` for the uncaught
KeyError on an out-of-grid line endpoint. -/
def encode (p : Problem) : Option EncOut :=
  if endpointsInGrid p then
    some { varToId := (finalEnc p).varToId
           nextVar := (finalEnc p).nextVar
           clauses := allClauses p }
  else none

/-- The DIMACS text written to the `.satinput` file (encode.py 348-354),
byte for byte. -/
def dimacs (e : EncOut) : String :=
  "p cnf " ++ toString (e.nextVar - 1) ++ " " ++ toString e.clauses.length ++ "\n" ++
  String.join (e.clauses.map (fun c =>
    String.intercalate " " (c.map (fun l => toString l)) ++ " 0\n"))

/-- The DIMACS output of the encoder for a problem, if it terminates. -/
def dimacsOut (p : Problem) : Option String := (encode p).map dimacs

/-- `id_to_var`: the pointwise inverse table built alongside `var_to_id`. -/
def idToVarOf (tbl : List (VName × Nat)) : List (Nat × VName) :=
  tbl.map (fun e => (e.2, e.1))

/-- The metadata written to the `.varmap.json` file (encode.py 356-358). -/
structure VarMapMeta where
  var_to_id : List (VName × Nat)
  id_to_var : List (Nat × VName)
  N : Int
  M : Int
  K : Nat
  J : Nat
  mode : Nat
  lines : List ((Int × Int) × (Int × Int))
  popular : List (Int × Int)
deriving DecidableEq

/-- The variable-map output of the encoder for a problem. -/
def varmapOut (p : Problem) : Option VarMapMeta :=
  (encode p).map (fun e =>
    { var_to_id := e.varToId
      id_to_var := idToVarOf e.varToId
      N := p.N
      M := p.M
      K := p.lines.length
      J := p.J
      mode := p.mode
      lines := p.lines
      popular := p.popular })

/-! ## Satisfaction -/

/-- A signed DIMACS literal is satisfied by an assignment. -/
def litSat (a : Nat → Bool) (l : Int) : Bool :=
  if 0 < l then a l.toNat else ! a (-l).toNat

/-- A clause (disjunction) is satisfied. -/
def clauseSat (a : Nat → Bool) (c : List Int) : Bool := c.any (litSat a)

/-- Every clause of a list is satisfied. -/
def satAll (a : Nat → Bool) (cls : List (List Int)) : Prop :=
  ∀ c ∈ cls, clauseSat a c = true

/-- Executable version of `satAll`. -/
def satAllB (a : Nat → Bool) (cls : List (List Int)) : Bool :=
  cls.all (clauseSat a)

/-- Number of true variables among a list of ids. -/
def countTrue (a : Nat → Bool) (ids : List Nat) : Nat := ids.countP (fun v => a v)

/-! ## Reachability over asserted edges (the property claimed for the
`reach`/`S` encoding) -/

/-- The directed steps of line k asserted true by an assignment: every
existing edge variable `E_{k}_{x}_{y}_{d}` that the assignment sets,
as a pair (source cell, destination cell). -/
def trueSteps (p : Problem) (a : Nat → Bool) (k : Nat) :
    List ((Int × Int) × (Int × Int)) :=
  (cellList p).flatMap (fun c =>
    (DIRS_LIST.filter (fun d =>
        inGridStep p c.1 c.2 d && a (vid p (VName.Ev k c.1 c.2 d)))).map
      (fun d => (c, (c.1 + dirDx d, c.2 + dirDy d))))

/-- One closure step: add destinations of steps leaving the current set. -/
def reachStep (steps : List ((Int × Int) × (Int × Int)))
    (s : List (Int × Int)) : List (Int × Int) :=
  s ++ (steps.filter (fun e => e.1 ∈ s ∧ ¬(e.2 ∈ s))).map (fun e => e.2)

/-- Iterated closure: after enough steps this is the set of cells
reachable from the seed by following the given directed steps. -/
def reachIter (steps : List ((Int × Int) × (Int × Int))) :
    Nat → List (Int × Int) → List (Int × Int)
  | 0, s => s
  | n + 1, s => reachIter steps n (reachStep steps s)

/-! ## The decoder (decode.py) -/

/-- Association-list lookup keyed by integer id (`id_to_var` access). -/
def assocFindNat : List (Nat × VName) → Nat → Option VName
  | [], _ => none
  | (m, v) :: rest, n => if m = n then some v else assocFindNat rest n

/-- The solver output file after stripping blank lines: either empty
(decode.py then dies on `satlines[0]`, modelled as the `empty` case), or
a first line plus the integer tokens of the remaining lines (non-integer
tokens are discarded by decode.py lines 47-54). -/
inductive SolverOutput where
  | empty
  | output (first : String) (tokens : List Int)

/-- `E_true`: the (k,x,y,D) quadruples of the true edge variables
(decode.py lines 45-63).  Python collects the positive ids into a hash
set and iterates it in an unspecified order; the deduplicated
id list is used here, and no theorem below depends on its order. -/
def eTrueOf (idv : List (Nat × VName)) (tokens : List Int) :
    List (Nat × Int × Int × Dir) :=
  (((tokens.filter (fun t => 0 < t)).map Int.toNat).dedup).filterMap (fun i =>
    match assocFindNat idv i with
    | some (VName.Ev k x y d) => some (k, x, y, d)
    | _ => none)

/-- Append an adjacency entry for a cell (`adjacency[(x,y)].append`). -/
def addAdj : List ((Int × Int) × List ((Int × Int) × Dir)) → (Int × Int) →
    ((Int × Int) × Dir) → List ((Int × Int) × List ((Int × Int) × Dir))
  | [], c, e => [(c, [e])]
  | (c', es) :: rest, c, e =>
    if c' = c then (c', es ++ [e]) :: rest else (c', es) :: addAdj rest c e

/-- `build_adjacency_list_for_line` (decode.py lines 109-123). -/
def buildAdj (k : Nat) (eTrue : List (Nat × Int × Int × Dir)) :
    List ((Int × Int) × List ((Int × Int) × Dir)) :=
  eTrue.foldl (fun adj q =>
    if q.1 = k then
      addAdj adj (q.2.1, q.2.2.1)
        ((q.2.1 + dirDx q.2.2.2, q.2.2.1 + dirDy q.2.2.2), q.2.2.2)
    else adj) []

/-- `adjacency.get((x,y), [])`. -/
def lookupAdj (adj : List ((Int × Int) × List ((Int × Int) × Dir)))
    (c : Int × Int) : List ((Int × Int) × Dir) :=
  match adj with
  | [] => []
  | (c', es) :: rest => if c' = c then es else lookupAdj rest c

/-- The neighbour loop body of `perform_bfs_search` (decode.py lines
90-96): mark each unvisited neighbour visited and append it to the queue
with the extended path.  Returns the new visited set and the entries to
append. -/
def bfsStep (visited : List (Int × Int)) (path : List Dir)
    (ns : List ((Int × Int) × Dir)) :
    List (Int × Int) × List ((Int × Int) × List Dir) :=
  ns.foldl (fun st e =>
    if e.1 ∈ st.1 then st
    else (e.1 :: st.1, st.2 ++ [(e.1, path ++ [e.2])])) (visited, [])

/-- The `while queue` loop of `perform_bfs_search`.  The Python loop
always terminates (every enqueue first marks a fresh cell visited, so
iterations are bounded by the visited-cell count); the fuel passed below
strictly exceeds that bound, so the fuel-exhaustion branch — which
returns "no path" like an exhausted queue — is never taken. -/
def bfsLoop (adj : List ((Int × Int) × List ((Int × Int) × Dir)))
    (target : Int × Int) :
    Nat → List ((Int × Int) × List Dir) → List (Int × Int) → Option (List Dir)
  | 0, _, _ => none
  | _ + 1, [], _ => none
  | fuel + 1, (c, path) :: rest, visited =>
    if c = target then some path
    else
      let st := bfsStep visited path (lookupAdj adj c)
      bfsLoop adj target fuel (rest ++ st.2) st.1

/-- `find_path_bfs` (decode.py lines 101-107): build the line's adjacency
and search from start to end.  Queue seeded with the start and the empty
path, visited seeded with the start. -/
def findPath (k : Nat) (s t : Int × Int)
    (eTrue : List (Nat × Int × Int × Dir)) : Option (List Dir) :=
  bfsLoop (buildAdj k eTrue) t (eTrue.length + 2) [(s, [])] [s]

/-- ASCII uppercase of one character (`str.upper()` restricted to the
ASCII range, which covers every string compared against "UNSAT"). -/
def upChar (c : Char) : Char :=
  if 97 ≤ c.toNat ∧ c.toNat ≤ 122 then Char.ofNat (c.toNat - 32) else c

/-- ASCII `str.upper()`. -/
def upper (s : String) : String := String.mk (s.data.map upChar)

/-- The token letter of a direction (the `D` component of the edge
variable name, as emitted in the output). -/
def dirToken : Dir → String
  | Dir.R => "R"
  | Dir.L => "L"
  | Dir.U => "U"
  | Dir.D => "D"

/-- One output line: `" ".join(path + ["0"])`. -/
def serializePath (path : List Dir) : String :=
  String.intercalate " " (path.map dirToken ++ ["0"])

/-- The main decoding loop over `range(K)` (decode.py lines 126-138):
per line, look its spec up (an out-of-range index is the uncaught
IndexError, `none`), search, and break on the first failed line
(`some none`).  `some (some paths)` means every line was reconstructed. -/
def decodeLoop (specs : List ((Int × Int) × (Int × Int)))
    (eTrue : List (Nat × Int × Int × Dir)) :
    List Nat → Option (Option (List (List Dir)))
  | [] => some (some [])
  | k :: ks =>
    match specs.get? k with
    | none => none
    | some sp =>
      match findPath k sp.1 sp.2 eTrue with
      | none => some none
      | some path =>
        match decodeLoop specs eTrue ks with
        | none => none
        | some none => some none
        | some (some ps) => some (some (path :: ps))

/-- The decoder body applied to an already-extracted true-edge list:
the main loop plus the final write (decode.py lines 126-146) — either
one serialized line per metro line, or the single marker line "0". -/
def decodeCore (meta : VarMapMeta) (eTrue : List (Nat × Int × Int × Dir)) :
    Option (List String) :=
  match decodeLoop meta.lines eTrue (List.range meta.K) with
  | none => none
  | some none => some ["0"]
  | some (some ps) => some (ps.map serializePath)

/-- The whole decoder run on a solver output: the UNSAT marker check
(decode.py lines 37-40), then assignment extraction and the main loop.
`none` models abnormal termination (no output file written). -/
def decode (meta : VarMapMeta) (out : SolverOutput) : Option (List String) :=
  match out with
  | SolverOutput.empty => none
  | SolverOutput.output first tokens =>
    if upper first = "UNSAT" then some ["0"]
    else decodeCore meta (eTrueOf meta.id_to_var tokens)

/-! ## Paths as data (for stating the decoder-correctness property) -/

/-- One grid step. -/
def stepCell (c : Int × Int) (d : Dir) : Int × Int :=
  (c.1 + dirDx d, c.2 + dirDy d)

/-- Walk a whole direction sequence. -/
def walk (c : Int × Int) (ds : List Dir) : Int × Int := ds.foldl stepCell c

/-- The i-th cell of the walk that starts at s and follows D. -/
def cellAt (s : Int × Int) (D : List Dir) (i : Nat) : Int × Int :=
  walk s (D.take i)

/-- The edge-variable quadruples asserted by a path of line k from s
along D: for every step both the forward and the reverse directed edge
(the encoding keeps reciprocal pairs equal). -/
def pathEdges (k : Nat) : (Int × Int) → List Dir → List (Nat × Int × Int × Dir)
  | _, [] => []
  | c, d :: ds =>
    (k, c.1, c.2, d) ::
    (k, c.1 + dirDx d, c.2 + dirDy d, revDir d) ::
    pathEdges k (c.1 + dirDx d, c.2 + dirDy d) ds

/-- The adjacency relation induced on cells by a path: the successor
with the step direction, and the predecessor with the reversed one. -/
def pathAdj (s : Int × Int) (D : List Dir) (z : Int × Int)
    (e : (Int × Int) × Dir) : Prop :=
  ∃ i, i < D.length ∧
    ((z = cellAt s D i ∧ e = (cellAt s D (i + 1), D.getD i Dir.R)) ∨
     (z = cellAt s D (i + 1) ∧ e = (cellAt s D i, revDir (D.getD i Dir.R))))

/-! ## Concrete instances -/

/-- The assignment that sets exactly the listed symbolic variables of a
problem true. -/
def aOf (p : Problem) (names : List VName) : Nat → Bool :=
  fun v => (names.map (vid p)).contains v

/-- The 3×1, one-line, J = 0 scenario of the spec: start (0,0), end
(2,0); the only solution is the straight path R R. -/
def ex1 : Problem :=
  { N := 3, M := 1, J := 0, mode := 1, lines := [((0, 0), (2, 0))], popular := [] }

/-- The straight-path satisfying assignment of `ex1`. -/
def ex1True : List VName :=
  [VName.Lv 0 0 0, VName.Lv 0 1 0, VName.Lv 0 2 0,
   VName.Sv 0 0 0, VName.Sv 0 1 0, VName.Sv 0 2 0,
   VName.Ev 0 0 0 Dir.R, VName.Ev 0 1 0 Dir.R,
   VName.Ev 0 1 0 Dir.L, VName.Ev 0 2 0 Dir.L]

/-- A 2×4 grid with one line from (0,0) to its neighbour (1,0) and turn
budget 4. -/
def ex2 : Problem :=
  { N := 2, M := 4, J := 4, mode := 1, lines := [((0, 0), (1, 0))], popular := [] }

/-- An assignment for `ex2` that routes the line by the single step R and
additionally occupies the four cells (0,2),(1,2),(1,3),(0,3) as a closed
cycle of asserted edges, disconnected from the start; every `S` (reach)
variable is set true.  The four cycle corners are turns; the counter
auxiliaries record the prefix counts of the turn list
[(0,1),(0,2),(0,3),(1,1),(1,2),(1,3)] = [F,T,T,F,T,T]. -/
def ex2True : List VName :=
  [VName.Lv 0 0 0, VName.Lv 0 1 0,
   VName.Lv 0 0 2, VName.Lv 0 1 2, VName.Lv 0 0 3, VName.Lv 0 1 3,
   VName.Sv 0 0 0, VName.Sv 0 1 0, VName.Sv 0 0 1, VName.Sv 0 1 1,
   VName.Sv 0 0 2, VName.Sv 0 1 2, VName.Sv 0 0 3, VName.Sv 0 1 3,
   VName.Ev 0 0 0 Dir.R, VName.Ev 0 1 0 Dir.L,
   VName.Ev 0 0 2 Dir.R, VName.Ev 0 1 2 Dir.L,
   VName.Ev 0 1 2 Dir.D, VName.Ev 0 1 3 Dir.U,
   VName.Ev 0 1 3 Dir.L, VName.Ev 0 0 3 Dir.R,
   VName.Ev 0 0 3 Dir.U, VName.Ev 0 0 2 Dir.D,
   VName.Tv 0 0 2, VName.Tv 0 0 3, VName.Tv 0 1 2, VName.Tv 0 1 3,
   VName.Cnt 0 1 0,
   VName.Cnt 0 2 0, VName.Cnt 0 2 1,
   VName.Cnt 0 3 0, VName.Cnt 0 3 1,
   VName.Cnt 0 4 0, VName.Cnt 0 4 1, VName.Cnt 0 4 2,
   VName.Cnt 0 5 0, VName.Cnt 0 5 1, VName.Cnt 0 5 2, VName.Cnt 0 5 3]

/-- A mode-2 problem on a 2×1 grid whose popular list holds the in-grid
cell (0,0) and the out-of-grid cell (5,5) — the malformed-description
scenario of the spec. -/
def ex3 : Problem :=
  { N := 2, M := 1, J := 1, mode := 2, lines := [((0, 0), (1, 0))],
    popular := [(0, 0), (5, 5)] }

/-- A placeholder metadata value (used only as a lookup default). -/
def metaDefault : VarMapMeta :=
  { var_to_id := [], id_to_var := [], N := 0, M := 0, K := 0, J := 0,
    mode := 0, lines := [], popular := [] }

/-- The variable-map metadata written for `ex1`. -/
def exMeta1 : VarMapMeta := (varmapOut ex1).getD metaDefault

/-- A placeholder encoder output (used only as a lookup default). -/
def encDefault : EncOut := { varToId := [], nextVar := 1, clauses := [] }

/-- The encoder output for `ex2`. -/
def exOut2 : EncOut := (encode ex2).getD encDefault

/-- The encoder output for `ex3`. -/
def exOut3 : EncOut := (encode ex3).getD encDefault

/-- The encoder output for `ex1`. -/
def exOut1 : EncOut := (encode ex1).getD encDefault

/-- The integer tokens a solver would print for the straight-path model
of `ex1` (the ids of the variables set true). -/
def ex1Tokens : List Int := ex1True.map (fun n => (vid ex1 n : Int))

/-- The allocation invariant of the `new_var` table: the ids in
insertion order are exactly 1, 2, …, next_var − 1, and no symbolic name
occurs twice. -/
def EncInv (st : Enc) : Prop :=
  st.varToId.map Prod.snd = List.range' 1 (st.nextVar - 1) ∧
  (st.varToId.map Prod.fst).Nodup ∧
  1 ≤ st.nextVar

/-! ## Basic satisfaction lemmas -/

theorem satAll_iff_satAllB (a : Nat → Bool) (cls : List (List Int)) :
    satAll a cls ↔ satAllB a cls = true := by
  simp [satAll, satAllB, List.all_eq_true]

theorem satAll_append (a : Nat → Bool) (l1 l2 : List (List Int)) :
    satAll a (l1 ++ l2) ↔ satAll a l1 ∧ satAll a l2 := by
  constructor
  · intro h
    exact ⟨fun c hc => h c (List.mem_append.2 (Or.inl hc)),
           fun c hc => h c (List.mem_append.2 (Or.inr hc))⟩
  · rintro ⟨h1, h2⟩ c hc
    rcases List.mem_append.1 hc with h | h
    · exact h1 c h
    · exact h2 c h

theorem litSat_neg (a : Nat → Bool) (v : Nat) :
    litSat a (-(v : Int)) = ! a v := by
  unfold litSat
  rw [if_neg (by omega)]
  simp

theorem litSat_pos (a : Nat → Bool) (v : Nat) (hv : 1 ≤ v) :
    litSat a ((v : Int)) = a v := by
  unfold litSat
  rw [if_pos (by omega)]
  simp

theorem clause_unit_neg (a : Nat → Bool) (x : Nat)
    (h : clauseSat a [-(x : Int)] = true) : a x = false := by
  simp [clauseSat, litSat_neg] at h
  exact h

theorem clause_unit_pos (a : Nat → Bool) (x : Nat) (hx : 1 ≤ x)
    (h : clauseSat a [(x : Int)] = true) : a x = true := by
  simp [clauseSat, litSat_pos a x hx] at h
  exact h

theorem clause_imp1 (a : Nat → Bool) (x y : Nat) (hy : 1 ≤ y)
    (h : clauseSat a [-(x : Int), (y : Int)] = true)
    (hx : a x = true) : a y = true := by
  simp [clauseSat, litSat_neg, litSat_pos a y hy, hx] at h
  exact h

theorem clause_imp2 (a : Nat → Bool) (x y z : Nat) (hz : 1 ≤ z)
    (h : clauseSat a [-(x : Int), -(y : Int), (z : Int)] = true)
    (hx : a x = true) (hy : a y = true) : a z = true := by
  simp [clauseSat, litSat_neg, litSat_pos a z hz, hx, hy] at h
  exact h

theorem clause_imp3_neg (a : Nat → Bool) (x y z w : Nat)
    (h : clauseSat a [-(x : Int), -(y : Int), -(z : Int), -(w : Int)] = true)
    (hx : a x = true) (hy : a y = true) (hz : a z = true) : a w = false := by
  simp [clauseSat, litSat_neg, hx, hy, hz] at h
  exact h

theorem clause_imp3_pos (a : Nat → Bool) (x y z w : Nat) (hw : 1 ≤ w)
    (h : clauseSat a [-(x : Int), -(y : Int), -(z : Int), (w : Int)] = true)
    (hx : a x = true) (hy : a y = true) (hz : a z = true) : a w = true := by
  simp [clauseSat, litSat_neg, litSat_pos a w hw, hx, hy, hz] at h
  exact h

/-- Unpack a successful `encode`. -/
theorem encode_eq (p : Problem) (out : EncOut) (h : encode p = some out) :
    out.clauses = allClauses p ∧ out.varToId = (finalEnc p).varToId ∧
    out.nextVar = (finalEnc p).nextVar ∧ endpointsInGrid p = true := by
  unfold encode at h
  by_cases hg : endpointsInGrid p = true
  · rw [if_pos hg] at h
    cases h
    exact ⟨rfl, rfl, rfl, hg⟩
  · rw [if_neg hg] at h
    cases h

/-! ## Claim theorems: determinism, error reporting, fail-fast -/

/-- C6: encoding is deterministic and idempotent — the emitted DIMACS
text and the variable-map metadata are pure functions of the parsed
problem description, so equal inputs give byte-identical outputs on
every run. -/
theorem C6_encoding_deterministic (p q : Problem) (h : p = q) :
    dimacsOut p = dimacsOut q ∧ varmapOut p = varmapOut q := by
  subst h
  exact ⟨rfl, rfl⟩

theorem C6_encoding_deterministic_witness :
    dimacsOut ex1 = dimacsOut ex1 ∧ varmapOut ex1 = varmapOut ex1 :=
  C6_encoding_deterministic ex1 ex1 rfl

/-- C3 (refuting the claim): the decoder's output does NOT distinguish
solver-reported UNSAT from an internal decode inconsistency.  On the
`ex1` metadata, a solver output reading UNSAT and a solver output
claiming SAT with an assignment whose true variables contain no edge of
a start-to-end path both produce exactly the same output file content,
the single marker line "0" (and the same exit status 0). -/
theorem C3_unsat_and_decode_failure_same_output :
    decode exMeta1 (SolverOutput.output "UNSAT" []) = some ["0"] ∧
    decode exMeta1 (SolverOutput.output "SAT" [1]) = some ["0"] ∧
    decodeCore exMeta1 (eTrueOf exMeta1.id_to_var [1]) = some ["0"] := by
  refine ⟨by decide, by decide, by decide⟩

/-- C4 (refuting the claim): on a malformed description whose popular
cell (5,5) lies outside the 2×1 grid, the encoder does not fail fast:
it allocates the full variable universe (next_var reaches 7, so 6
variables), emits a complete CNF containing the contradictory pair
[1], [-1], and produces DIMACS output. -/
theorem C4_no_fail_fast_on_malformed_input :
    encode ex3 = some exOut3 ∧
    exOut3.nextVar = 7 ∧
    [(1 : Int)] ∈ exOut3.clauses ∧
    [(-1 : Int)] ∈ exOut3.clauses ∧
    (dimacsOut ex3).isSome = true := by
  refine ⟨by decide, by decide, by decide, by decide, by decide⟩

/-- The main decoding loop returns one path per processed line index. -/
theorem decodeLoop_length (specs : List ((Int × Int) × (Int × Int)))
    (eTrue : List (Nat × Int × Int × Dir)) :
    ∀ (ks : List Nat) (ps : List (List Dir)),
      decodeLoop specs eTrue ks = some (some ps) → ps.length = ks.length := by
  intro ks
  induction ks with
  | nil =>
    intro ps h
    simp [decodeLoop] at h
    simp [← h]
  | cons k ks ih =>
    intro ps h
    unfold decodeLoop at h
    cases hg : specs.get? k with
    | none => rw [hg] at h; cases h
    | some sp =>
      rw [hg] at h
      dsimp only at h
      cases hf : findPath k sp.1 sp.2 eTrue with
      | none => rw [hf] at h; cases h
      | some path =>
        rw [hf] at h
        dsimp only at h
        cases hr : decodeLoop specs eTrue ks with
        | none => rw [hr] at h; cases h
        | some o =>
          cases o with
          | none => rw [hr] at h; cases h
          | some ps' =>
            rw [hr] at h
            dsimp only at h
            cases h
            simp [ih ps' hr]

/-- C10: the decoder's output is all-or-nothing — whenever decode.py
writes an output file at all, that file is either the single marker line
"0" or exactly K direction-token lines; a partial subset of line outputs
is never produced. -/
theorem C10_all_or_nothing (meta : VarMapMeta) (sol : SolverOutput)
    (out : List String) (h : decode meta sol = some out) :
    out = ["0"] ∨ out.length = meta.K := by
  cases sol with
  | empty => simp [decode] at h
  | output first tokens =>
    unfold decode at h
    dsimp only at h
    by_cases hu : upper first = "UNSAT"
    · rw [if_pos hu] at h
      cases h
      exact Or.inl rfl
    · rw [if_neg hu] at h
      unfold decodeCore at h
      cases hl : decodeLoop meta.lines (eTrueOf meta.id_to_var tokens) (List.range meta.K) with
      | none => rw [hl] at h; cases h
      | some o =>
        cases o with
        | none =>
          rw [hl] at h
          cases h
          exact Or.inl rfl
        | some ps =>
          rw [hl] at h
          cases h
          refine Or.inr ?_
          rw [List.length_map]
          rw [decodeLoop_length _ _ _ _ hl]
          exact List.length_range meta.K

theorem C10_all_or_nothing_witness :
    decode exMeta1 (SolverOutput.output "UNSAT" []) = some ["0"] ∧
    (["0"] = ["0"] ∨ (["0"] : List String).length = exMeta1.K) :=
  ⟨by decide, C10_all_or_nothing exMeta1 (SolverOutput.output "UNSAT" []) ["0"] (by decide)⟩

/-! ## C1: the reach encoding does not force genuine reachability -/

/-- Closure bound: if a set P contains the seed set and is closed under
the given directed steps, the iterated closure stays inside P. -/
theorem reachIter_subset (steps : List ((Int × Int) × (Int × Int)))
    (P : List (Int × Int))
    (hcl : ∀ e ∈ steps, e.1 ∈ P → e.2 ∈ P) :
    ∀ (fuel : Nat) (s : List (Int × Int)), (∀ c ∈ s, c ∈ P) →
      ∀ c ∈ reachIter steps fuel s, c ∈ P := by
  intro fuel
  induction fuel with
  | zero => intro s hs c hc; exact hs c hc
  | succ n ih =>
    intro s hs c hc
    refine ih (reachStep steps s) ?_ c hc
    intro z hz
    rcases List.mem_append.1 hz with h | h
    · exact hs z h
    · rcases List.mem_map.1 h with ⟨e, he, rfl⟩
      rcases List.mem_filter.1 he with ⟨hes, hcond⟩
      have h1 : e.1 ∈ s := by
        simp at hcond
        exact hcond.1
      exact hcl e hes (hs e.1 h1)

set_option maxRecDepth 100000 in
/-- C1 (refuting the claim): a satisfying assignment of the emitted CNF
may occupy cells that are not reachable from the line's start along the
asserted edges.  On `ex2`, the assignment `ex2True` satisfies every
emitted clause, occupies cell (0,2) for line 0, yet (0,2) is not
reachable from the start (0,0) by the asserted edges of line 0 — the
occupied cells (0,2),(1,2),(1,3),(0,3) form a disconnected cycle
alongside the start-to-end path, because nothing stops all `reach`
variables from being set true. -/
theorem C1_disconnected_cycle_satisfies :
    encode ex2 = some exOut2 ∧
    satAll (aOf ex2 ex2True) exOut2.clauses ∧
    aOf ex2 ex2True (vid ex2 (VName.Lv 0 0 2)) = true ∧
    ∀ fuel : Nat,
      (0, 2) ∉ reachIter (trueSteps ex2 (aOf ex2 ex2True) 0) fuel [(0, 0)] := by
  refine ⟨by decide, ?_, by decide, ?_⟩
  · rw [satAll_iff_satAllB]
    have h : exOut2.clauses = allClauses ex2 := by decide
    rw [h]
    decide
  · intro fuel hmem
    have hP := reachIter_subset (trueSteps ex2 (aOf ex2 ex2True) 0)
      [(0, 0), (1, 0)] (by decide) fuel [(0, 0)] (by decide) (0, 2) hmem
    simp at hP

/-! ## The variable table: lookup and allocation lemmas -/

theorem assocFind_eq_none (tbl : List (VName × Nat)) (n : VName) :
    assocFind tbl n = none ↔ n ∉ tbl.map Prod.fst := by
  induction tbl with
  | nil => simp [assocFind]
  | cons e rest ih =>
    obtain ⟨m, v⟩ := e
    by_cases he : m = n
    · subst he
      simp [assocFind]
    · simp [assocFind, he, ih, Ne.symm he]

theorem assocFind_mem (tbl : List (VName × Nat)) (n : VName) (v : Nat)
    (h : assocFind tbl n = some v) : (n, v) ∈ tbl := by
  induction tbl with
  | nil => cases h
  | cons e rest ih =>
    obtain ⟨m, w⟩ := e
    unfold assocFind at h
    by_cases he : m = n
    · rw [if_pos he] at h
      cases h
      subst he
      exact List.mem_cons_self _ _
    · rw [if_neg he] at h
      exact List.mem_cons_of_mem _ (ih h)

theorem assocFind_append (t1 t2 : List (VName × Nat)) (n : VName) :
    assocFind (t1 ++ t2) n =
      match assocFind t1 n with
      | some v => some v
      | none => assocFind t2 n := by
  induction t1 with
  | nil => rfl
  | cons e rest ih =>
    obtain ⟨m, v⟩ := e
    by_cases he : m = n
    · show (if m = n then some v else assocFind (rest ++ t2) n) = _
      rw [if_pos he]
      have hh : assocFind ((m, v) :: rest) n = some v := by
        show (if m = n then some v else assocFind rest n) = some v
        rw [if_pos he]
      rw [hh]
    · show (if m = n then some v else assocFind (rest ++ t2) n) = _
      rw [if_neg he, ih]
      have hh : assocFind ((m, v) :: rest) n = assocFind rest n := by
        show (if m = n then some v else assocFind rest n) = _
        rw [if_neg he]
      rw [hh]

theorem assocFind_newVar_self_isSome (st : Enc) (m n : VName) :
    (assocFind (newVar st m).varToId n).isSome = true ↔
      (assocFind st.varToId n).isSome = true ∨ n = m := by
  unfold newVar
  cases hf : assocFind st.varToId m with
  | some v =>
    dsimp only
    constructor
    · exact Or.inl
    · rintro (h | rfl)
      · exact h
      · rw [hf]; rfl
  | none =>
    dsimp only
    rw [assocFind_append]
    cases hn : assocFind st.varToId n with
    | some v => simp
    | none =>
      dsimp only
      by_cases hmn : m = n
      · subst hmn
        simp [assocFind]
      · simp [assocFind, hmn]
        exact fun h => hmn h.symm

theorem assocFind_foldl_isSome (names : List VName) :
    ∀ (st : Enc) (n : VName),
      (assocFind ((names.foldl newVar st).varToId) n).isSome = true ↔
        (assocFind st.varToId n).isSome = true ∨ n ∈ names := by
  induction names with
  | nil => intro st n; simp
  | cons m rest ih =>
    intro st n
    rw [List.foldl_cons, ih, assocFind_newVar_self_isSome]
    simp [or_assoc]

theorem newVar_inv (st : Enc) (n : VName) (h : EncInv st) : EncInv (newVar st n) := by
  obtain ⟨hsnd, hfst, hpos⟩ := h
  unfold newVar
  cases hf : assocFind st.varToId n with
  | some v => exact ⟨hsnd, hfst, hpos⟩
  | none =>
    refine ⟨?_, ?_, ?_⟩
    · show List.map Prod.snd (st.varToId ++ [(n, st.nextVar)]) =
        List.range' 1 (st.nextVar + 1 - 1)
      rw [List.map_append, hsnd]
      have h1 : st.nextVar + 1 - 1 = (st.nextVar - 1) + 1 := by omega
      rw [h1, List.range'_concat]
      have h2 : 1 + 1 * (st.nextVar - 1) = st.nextVar := by omega
      rw [h2]
      rfl
    · show (List.map Prod.fst (st.varToId ++ [(n, st.nextVar)])).Nodup
      rw [List.map_append, List.nodup_append]
      have hnot : n ∉ st.varToId.map Prod.fst := (assocFind_eq_none _ _).1 hf
      refine ⟨hfst, by simp, ?_⟩
      intro x hx hxn
      simp at hxn
      subst hxn
      exact hnot hx
    · show 1 ≤ st.nextVar + 1
      omega

theorem foldl_newVar_inv (names : List VName) :
    ∀ (st : Enc), EncInv st → EncInv (names.foldl newVar st) := by
  induction names with
  | nil => intro st h; exact h
  | cons m rest ih =>
    intro st h
    exact ih (newVar st m) (newVar_inv st m h)

theorem finalEnc_inv (p : Problem) : EncInv (finalEnc p) := by
  refine foldl_newVar_inv (allNames p) _ ⟨rfl, List.nodup_nil, le_refl 1⟩

theorem mem_tbl_pos (st : Enc) (h : EncInv st) (n : VName) (v : Nat)
    (hm : (n, v) ∈ st.varToId) : 1 ≤ v := by
  obtain ⟨hsnd, -, -⟩ := h
  have : v ∈ st.varToId.map Prod.snd := List.mem_map.2 ⟨(n, v), hm, rfl⟩
  rw [hsnd] at this
  rcases List.mem_range'.1 this with ⟨i, -, rfl⟩
  omega

theorem vid_isSome_iff (p : Problem) (n : VName) :
    (assocFind (finalEnc p).varToId n).isSome = true ↔ n ∈ allNames p := by
  unfold finalEnc
  rw [assocFind_foldl_isSome]
  simp [assocFind]

theorem vid_pos (p : Problem) (n : VName) (h : n ∈ allNames p) : 1 ≤ vid p n := by
  have hs := (vid_isSome_iff p n).2 h
  cases hf : assocFind (finalEnc p).varToId n with
  | none => rw [hf] at hs; cases hs
  | some v =>
    have hv := mem_tbl_pos (finalEnc p) (finalEnc_inv p) n v (assocFind_mem _ _ _ hf)
    unfold vid
    rw [hf]
    exact hv

theorem pairs_eq_of_snd_nodup (tbl : List (VName × Nat))
    (h : (tbl.map Prod.snd).Nodup) :
    ∀ n1 n2 v, (n1, v) ∈ tbl → (n2, v) ∈ tbl → n1 = n2 := by
  induction tbl with
  | nil => intro n1 n2 v h1 h2; cases h1
  | cons e rest ih =>
    obtain ⟨m, w⟩ := e
    rw [List.map_cons, List.nodup_cons] at h
    intro n1 n2 v h1 h2
    rcases List.mem_cons.1 h1 with h1h | h1r
    · rcases List.mem_cons.1 h2 with h2h | h2r
      · have e1 := congrArg Prod.fst h1h
        have e2 := congrArg Prod.fst h2h
        simp at e1 e2
        rw [e1, e2]
      · have ev := congrArg Prod.snd h1h
        simp at ev
        subst ev
        exact absurd (List.mem_map.2 ⟨(n2, v), h2r, rfl⟩) h.1
    · rcases List.mem_cons.1 h2 with h2h | h2r
      · have ev := congrArg Prod.snd h2h
        simp at ev
        subst ev
        exact absurd (List.mem_map.2 ⟨(n1, v), h1r, rfl⟩) h.1
      · exact ih h.2 n1 n2 v h1r h2r

/-- C9: after encoding, the variable table is a dense total bijection —
the ids in allocation order are exactly 1 … next_var−1 (dense, gap-free,
starting at 1), no symbolic name appears twice, no id appears twice, and
every id in use maps back to exactly one symbolic name. -/
theorem C9_varmap_bijection (p : Problem) (out : EncOut)
    (he : encode p = some out) :
    out.varToId.map Prod.snd = List.range' 1 (out.nextVar - 1) ∧
    (out.varToId.map Prod.fst).Nodup ∧
    (out.varToId.map Prod.snd).Nodup ∧
    (∀ n1 n2 v, (n1, v) ∈ out.varToId → (n2, v) ∈ out.varToId → n1 = n2) := by
  obtain ⟨-, hvt, hnv, -⟩ := encode_eq p out he
  obtain ⟨hsnd, hfst, -⟩ := finalEnc_inv p
  rw [hvt, hnv]
  have hsnodup : ((finalEnc p).varToId.map Prod.snd).Nodup := by
    rw [hsnd]
    exact List.nodup_range' 1 ((finalEnc p).nextVar - 1)
  exact ⟨hsnd, hfst, hsnodup, pairs_eq_of_snd_nodup _ hsnodup⟩

theorem C9_varmap_bijection_witness :
    exOut1.varToId.map Prod.snd = List.range' 1 (exOut1.nextVar - 1) ∧
    (exOut1.varToId.map Prod.fst).Nodup ∧
    (exOut1.varToId.map Prod.snd).Nodup ∧
    (∀ n1 n2 v, (n1, v) ∈ exOut1.varToId → (n2, v) ∈ exOut1.varToId → n1 = n2) :=
  C9_varmap_bijection ex1 exOut1 (by decide)

/-! ## The sequential counter enforces its cardinality bound -/

theorem countTrue_take_succ (a : Nat → Bool) (l : List Nat) (i : Nat)
    (h : i < l.length) :
    countTrue a (l.take (i + 1)) =
      countTrue a (l.take i) + (if a (l.getD i 0) = true then 1 else 0) := by
  have hc : (l.take i).concat l[i] = l.take (i + 1) := List.take_concat_get l i h
  rw [← hc, List.concat_eq_append]
  unfold countTrue
  rw [List.countP_append]
  have hg : l.getD i 0 = l[i] := by
    simp [List.getD, List.getElem?_eq_getElem h]
  rw [hg]
  simp [List.countP_cons]

theorem counter_mem_seed (vars : List Nat) (s : Nat → Nat → Nat) (k : Nat) :
    [-(vars.headD 0 : Int), (s 0 0 : Int)] ∈ counterClauses vars s k := by
  unfold counterClauses
  exact List.mem_append.2 (Or.inl (List.mem_append.2 (Or.inl
    (List.mem_append.2 (Or.inl (by simp))))))

theorem counter_mem_carry (vars : List Nat) (s : Nat → Nat → Nat) (k i0 j : Nat)
    (hi : i0 < vars.length - 1) (hj : j ≤ k) :
    [-(s i0 j : Int), (s (i0 + 1) j : Int)] ∈ counterClauses vars s k := by
  unfold counterClauses
  refine List.mem_append.2 (Or.inl (List.mem_append.2 (Or.inr ?_)))
  refine List.mem_flatMap.2 ⟨i0, List.mem_range.2 hi, ?_⟩
  dsimp only
  refine List.mem_append.2 (Or.inl (List.mem_append.2 (Or.inl ?_)))
  refine List.mem_map.2 ⟨j, List.mem_range.2 (by omega), ?_⟩
  simp

theorem counter_mem_incr0 (vars : List Nat) (s : Nat → Nat → Nat) (k i0 : Nat)
    (hi : i0 < vars.length - 1) :
    [-(vars.getD (i0 + 1) 0 : Int), (s (i0 + 1) 0 : Int)] ∈ counterClauses vars s k := by
  unfold counterClauses
  refine List.mem_append.2 (Or.inl (List.mem_append.2 (Or.inr ?_)))
  refine List.mem_flatMap.2 ⟨i0, List.mem_range.2 hi, ?_⟩
  dsimp only
  refine List.mem_append.2 (Or.inl (List.mem_append.2 (Or.inr ?_)))
  simp

theorem counter_mem_incrj (vars : List Nat) (s : Nat → Nat → Nat) (k i0 j0 : Nat)
    (hi : i0 < vars.length - 1) (hj : j0 < k) :
    [-(vars.getD (i0 + 1) 0 : Int), -(s i0 j0 : Int), (s (i0 + 1) (j0 + 1) : Int)] ∈
      counterClauses vars s k := by
  unfold counterClauses
  refine List.mem_append.2 (Or.inl (List.mem_append.2 (Or.inr ?_)))
  refine List.mem_flatMap.2 ⟨i0, List.mem_range.2 hi, ?_⟩
  dsimp only
  refine List.mem_append.2 (Or.inr ?_)
  refine List.mem_map.2 ⟨j0, List.mem_range.2 hj, ?_⟩
  simp

theorem counter_mem_final (vars : List Nat) (s : Nat → Nat → Nat) (k : Nat) :
    [-(s (vars.length - 1) k : Int)] ∈ counterClauses vars s k := by
  unfold counterClauses
  exact List.mem_append.2 (Or.inr (by simp))

/-- Soundness of `add_at_most_k_constraint`: any assignment satisfying
the emitted counter clauses has at most k true variables among the
inputs. -/
theorem counter_at_most (vars : List Nat) (s : Nat → Nat → Nat) (k : Nat)
    (a : Nat → Bool) (hk : k < vars.length)
    (hpos : ∀ i j, i < vars.length → j ≤ k → 1 ≤ s i j)
    (hsat : ∀ c ∈ counterClauses vars s k, clauseSat a c = true) :
    countTrue a vars ≤ k := by
  have inv : ∀ i, i < vars.length → ∀ j, j ≤ k →
      j + 1 ≤ countTrue a (vars.take (i + 1)) → a (s i j) = true := by
    intro i
    induction i with
    | zero =>
      intro hi j hj hcount
      simp only [Nat.zero_add] at hcount
      have h1 : countTrue a (vars.take 1) ≤ 1 :=
        le_trans (List.countP_le_length _) (by simp)
      have hj0 : j = 0 := by omega
      subst hj0
      have hv : a (vars.getD 0 0) = true := by
        by_contra hc
        have hts := countTrue_take_succ a vars 0 (by omega)
        rw [Bool.not_eq_true] at hc
        rw [hc, List.take_zero] at hts
        have h0 : countTrue a ([] : List Nat) = 0 := rfl
        rw [h0] at hts
        simp at hts
        omega
      have hhead : vars.getD 0 0 = vars.headD 0 := by
        cases vars with
        | nil => rfl
        | cons v l => rfl
      refine clause_imp1 a _ _ (hpos 0 0 hi (by omega))
        (hsat _ (counter_mem_seed vars s k)) ?_
      rw [← hhead]
      exact hv
    | succ i ih =>
      intro hi j hj hcount
      have hi' : i < vars.length := by omega
      have hts := countTrue_take_succ a vars (i + 1) hi
      by_cases hv : a (vars.getD (i + 1) 0) = true
      · cases j with
        | zero =>
          exact clause_imp1 a _ _ (hpos (i + 1) 0 hi (by omega))
            (hsat _ (counter_mem_incr0 vars s k i (by omega))) hv
        | succ j0 =>
          have hc' : j0 + 1 ≤ countTrue a (vars.take (i + 1)) := by
            rw [hts, if_pos hv] at hcount
            omega
          have hprev := ih hi' j0 (by omega) hc'
          exact clause_imp2 a _ _ _ (hpos (i + 1) (j0 + 1) hi hj)
            (hsat _ (counter_mem_incrj vars s k i j0 (by omega) (by omega))) hv hprev
      · rw [Bool.not_eq_true] at hv
        have hc' : j + 1 ≤ countTrue a (vars.take (i + 1)) := by
          rw [hts, hv] at hcount
          simp at hcount
          exact hcount
        have hprev := ih hi' j hj hc'
        exact clause_imp1 a _ _ (hpos (i + 1) j hi hj)
          (hsat _ (counter_mem_carry vars s k i j (by omega) hj)) hprev
  by_contra hgt
  push_neg at hgt
  have hfull : countTrue a (vars.take ((vars.length - 1) + 1)) = countTrue a vars := by
    have h1 : vars.length - 1 + 1 = vars.length := by omega
    rw [h1, List.take_length]
  have hlast := inv (vars.length - 1) (by omega) k (le_refl k) (by rw [hfull]; omega)
  have hfin := clause_unit_neg a _ (hsat _ (counter_mem_final vars s k))
  rw [hlast] at hfin
  cases hfin

/-! ## C2: at most J turns per line in every satisfying assignment -/

theorem enum_mem (l : List ((Int × Int) × (Int × Int))) (k : Nat)
    (sp : (Int × Int) × (Int × Int)) (h : l.get? k = some sp) :
    (k, sp) ∈ l.enum := by
  rw [List.get?_eq_getElem?] at h
  exact List.mk_mem_enum_iff_getElem?.2 h

theorem turnVarIds_length (p : Problem) (k : Nat) (s t : Int × Int) :
    (turnVarIds p k s t).length = (tCells p s t).length :=
  List.length_map _ _

theorem cnt_mem_allNames (p : Problem) (k : Nat) (s t : Int × Int) (i j : Nat)
    (hk : p.lines.get? k = some (s, t))
    (hn : p.J < (tCells p s t).length)
    (hi : i < (tCells p s t).length) (hj : j ≤ p.J) :
    VName.Cnt k i j ∈ allNames p := by
  unfold allNames
  refine List.mem_append.2 (Or.inr ?_)
  unfold counterNames
  refine List.mem_flatMap.2 ⟨(k, (s, t)), enum_mem _ _ _ hk, ?_⟩
  dsimp only
  rw [if_neg (by omega), if_neg (by omega)]
  refine List.mem_flatMap.2 ⟨i, List.mem_range.2 hi, ?_⟩
  exact List.mem_map.2 ⟨j, List.mem_range.2 (by omega), rfl⟩

theorem counter_subset_allClauses (p : Problem) (k : Nat) (s t : Int × Int)
    (hk : p.lines.get? k = some (s, t))
    (hgt : ¬(turnVarIds p k s t).length ≤ p.J) :
    ∀ c ∈ counterClauses (turnVarIds p k s t)
        (fun i j => vid p (VName.Cnt k i j)) p.J,
      c ∈ allClauses p := by
  intro c hc
  have hmem : c ∈ turnClauses p := by
    unfold turnClauses
    refine List.mem_flatMap.2 ⟨(k, (s, t)), enum_mem _ _ _ hk, ?_⟩
    dsimp only
    refine List.mem_append.2 (Or.inr ?_)
    have hne : ¬(turnVarIds p k s t = []) := by
      intro h
      rw [h] at hgt
      simp at hgt
    rw [if_neg hne, if_neg hgt]
    exact hc
  simp [allClauses, List.mem_append, hmem]

/-- C2: in every satisfying assignment of the emitted CNF, at most J of
line k's turn variables are true — the sequential unary counter encoding
(matrix seeding, carry/increment propagation, top-right cell forced
false) correctly enforces the at-most-J bound on the collected turn
variable list of each line. -/
theorem C2_at_most_J_turns (p : Problem) (out : EncOut) (a : Nat → Bool)
    (k : Nat) (s t : Int × Int)
    (he : encode p = some out) (hsat : satAll a out.clauses)
    (hk : p.lines.get? k = some (s, t)) :
    countTrue a (turnVarIds p k s t) ≤ p.J := by
  by_cases hle : (turnVarIds p k s t).length ≤ p.J
  · exact le_trans (List.countP_le_length _) hle
  · obtain ⟨hcl, -, -, -⟩ := encode_eq p out he
    refine counter_at_most (turnVarIds p k s t)
      (fun i j => vid p (VName.Cnt k i j)) p.J a (by omega) ?_ ?_
    · intro i j hi hj
      refine vid_pos p _ (cnt_mem_allNames p k s t i j hk ?_ ?_ hj)
      · rw [← turnVarIds_length p k s t]
        omega
      · rw [← turnVarIds_length p k s t]
        exact hi
    · intro c hc
      refine hsat c ?_
      rw [hcl]
      exact counter_subset_allClauses p k s t hk hle c hc

theorem C2_at_most_J_turns_witness :
    countTrue (aOf ex1 ex1True) (turnVarIds ex1 0 (0, 0) (2, 0)) ≤ ex1.J :=
  C2_at_most_J_turns ex1 exOut1 (aOf ex1 ex1True) 0 (0, 0) (2, 0) (by decide)
    (by rw [satAll_iff_satAllB]; decide) (by decide)

/-! ## Name membership in the variable universe -/

theorem mem_intRange (n a : Int) : a ∈ intRange n ↔ 0 ≤ a ∧ a < n := by
  unfold intRange
  simp only [List.mem_map, List.mem_range]
  constructor
  · rintro ⟨i, hi, rfl⟩
    refine ⟨Int.natCast_nonneg i, ?_⟩
    show (i : Int) < n
    omega
  · rintro ⟨h0, h1⟩
    refine ⟨a.toNat, by omega, ?_⟩
    show ((a.toNat : Nat) : Int) = a
    omega

theorem mem_cellList (p : Problem) (x y : Int) :
    (x, y) ∈ cellList p ↔ inGrid p x y = true := by
  unfold cellList inGrid
  simp only [List.mem_flatMap, List.mem_map, mem_intRange, Prod.mk.injEq,
    Bool.and_eq_true, decide_eq_true_eq]
  constructor
  · rintro ⟨u, hu, v, hv, rfl, rfl⟩
    exact ⟨⟨⟨hu.1, hu.2⟩, hv.1⟩, hv.2⟩
  · rintro ⟨⟨⟨h1, h2⟩, h3⟩, h4⟩
    exact ⟨x, ⟨h1, h2⟩, y, ⟨h3, h4⟩, rfl, rfl⟩

theorem lv_mem_allNames (p : Problem) (k : Nat) (s t : Int × Int) (x y : Int)
    (hk : p.lines.get? k = some (s, t)) (hxy : inGrid p x y = true) :
    VName.Lv k x y ∈ allNames p := by
  unfold allNames
  refine List.mem_append.2 (Or.inl ?_)
  unfold buildNames
  refine List.mem_flatMap.2 ⟨(k, (s, t)), enum_mem _ _ _ hk, ?_⟩
  refine List.mem_flatMap.2 ⟨(x, y), (mem_cellList p x y).2 hxy, ?_⟩
  simp [cellNames]

theorem tv_mem_allNames (p : Problem) (k : Nat) (s t : Int × Int) (x y : Int)
    (hk : p.lines.get? k = some (s, t)) (hxy : inGrid p x y = true)
    (hne : ¬((x, y) = s ∨ (x, y) = t)) :
    VName.Tv k x y ∈ allNames p := by
  unfold allNames
  refine List.mem_append.2 (Or.inl ?_)
  unfold buildNames
  refine List.mem_flatMap.2 ⟨(k, (s, t)), enum_mem _ _ _ hk, ?_⟩
  refine List.mem_flatMap.2 ⟨(x, y), (mem_cellList p x y).2 hxy, ?_⟩
  simp [cellNames, hne]

theorem ev_mem_allNames (p : Problem) (k : Nat) (s t : Int × Int) (x y : Int)
    (d : Dir) (hk : p.lines.get? k = some (s, t)) (hxy : inGrid p x y = true)
    (hd : inGridStep p x y d = true) :
    VName.Ev k x y d ∈ allNames p := by
  unfold allNames
  refine List.mem_append.2 (Or.inl ?_)
  unfold buildNames
  refine List.mem_flatMap.2 ⟨(k, (s, t)), enum_mem _ _ _ hk, ?_⟩
  refine List.mem_flatMap.2 ⟨(x, y), (mem_cellList p x y).2 hxy, ?_⟩
  unfold cellNames
  refine List.mem_append.2 (Or.inr ?_)
  refine List.mem_map.2 ⟨d, List.mem_filter.2 ⟨?_, hd⟩, rfl⟩
  cases d <;> simp [DIRS_LIST]

/-! ## C8: popular-cell coverage -/

theorem popClauses_subset (p : Problem) (c : List Int)
    (h : c ∈ popClauses p) : c ∈ allClauses p := by
  simp [allClauses, List.mem_append, h]

/-- C8: for a mode-2 problem, every popular cell with candidate occupant
variables gets the disjunction of all lines' occupied variables at that
cell as a clause (so every satisfying assignment has some line claiming
it), and every popular cell with no candidate occupant entry — an
out-of-grid cell, or K = 0 — gets the deliberately contradictory clause
pair [1], [-1], which makes the whole CNF unsatisfiable. -/
theorem C8_popular_cell_coverage (p : Problem) (out : EncOut) (c : Int × Int)
    (he : encode p = some out) (hm : p.mode = 2) (hc : c ∈ p.popular) :
    (inGrid p c.1 c.2 = true ∧ p.lines.length ≠ 0 →
      ((cellsLines p c.1 c.2).map Int.ofNat) ∈ out.clauses ∧
      ∀ a, satAll a out.clauses →
        ∃ k, k < p.lines.length ∧ a (vid p (VName.Lv k c.1 c.2)) = true) ∧
    (¬(inGrid p c.1 c.2 = true ∧ p.lines.length ≠ 0) →
      [(1 : Int)] ∈ out.clauses ∧ [(-1 : Int)] ∈ out.clauses ∧
      ∀ a, ¬satAll a out.clauses) := by
  obtain ⟨hcl, -, -, -⟩ := encode_eq p out he
  have hguard : ¬(p.mode ≠ 2 ∨ p.popular = []) := by
    rintro (h | h)
    · exact h hm
    · rw [h] at hc
      cases hc
  constructor
  · intro hcase
    have hmem : ((cellsLines p c.1 c.2).map Int.ofNat) ∈ popClauses p := by
      unfold popClauses
      rw [if_neg hguard]
      refine List.mem_flatMap.2 ⟨c, hc, ?_⟩
      dsimp only
      rw [if_pos hcase]
      have hne : ¬(cellsLines p c.1 c.2 = []) := by
        intro h
        have hlen := congrArg List.length h
        simp [cellsLines] at hlen
        exact hcase.2 (by simp [hlen])
      rw [if_pos hne]
      simp
    refine ⟨by rw [hcl]; exact popClauses_subset p _ hmem, ?_⟩
    intro a hs
    have hcs := hs _ (by rw [hcl]; exact popClauses_subset p _ hmem)
    rcases List.any_eq_true.1 hcs with ⟨l, hl, hlit⟩
    unfold cellsLines at hl
    rw [List.map_map] at hl
    rcases List.mem_map.1 hl with ⟨k, hkr, heq⟩
    simp only [Function.comp] at heq
    rw [← heq] at hlit
    have hklen : k < p.lines.length := List.mem_range.1 hkr
    refine ⟨k, hklen, ?_⟩
    have hsp : p.lines.get? k = some (p.lines.get ⟨k, hklen⟩) := List.get?_eq_get hklen
    have hpos := vid_pos p _
      (lv_mem_allNames p k (p.lines.get ⟨k, hklen⟩).1 (p.lines.get ⟨k, hklen⟩).2
        c.1 c.2 (by rw [hsp]) hcase.1)
    have hlit2 : litSat a ((vid p (VName.Lv k c.1 c.2) : Nat) : Int) = true := hlit
    rw [litSat_pos a _ hpos] at hlit2
    exact hlit2
  · intro hcase
    have hmem1 : [(1 : Int)] ∈ popClauses p := by
      unfold popClauses
      rw [if_neg hguard]
      refine List.mem_flatMap.2 ⟨c, hc, ?_⟩
      dsimp only
      rw [if_neg hcase]
      simp
    have hmem2 : [(-1 : Int)] ∈ popClauses p := by
      unfold popClauses
      rw [if_neg hguard]
      refine List.mem_flatMap.2 ⟨c, hc, ?_⟩
      dsimp only
      rw [if_neg hcase]
      simp
    refine ⟨by rw [hcl]; exact popClauses_subset p _ hmem1,
            by rw [hcl]; exact popClauses_subset p _ hmem2, ?_⟩
    intro a hs
    have h1 : a 1 = true := by
      have := hs _ (by rw [hcl]; exact popClauses_subset p _ hmem1)
      have hcast : ((1 : Nat) : Int) = (1 : Int) := rfl
      refine clause_unit_pos a 1 (le_refl 1) ?_
      rw [hcast]
      exact this
    have h0 : a 1 = false := by
      have := hs _ (by rw [hcl]; exact popClauses_subset p _ hmem2)
      have hcast : (-((1 : Nat) : Int)) = (-1 : Int) := rfl
      refine clause_unit_neg a 1 ?_
      rw [hcast]
      exact this
    rw [h1] at h0
    cases h0

theorem C8_popular_cell_coverage_witness :
    ([(1 : Int)] ∈ exOut3.clauses ∧ [(-1 : Int)] ∈ exOut3.clauses ∧
      ∀ a, ¬satAll a exOut3.clauses) ∧
    ((cellsLines ex3 0 0).map Int.ofNat) ∈ exOut3.clauses := by
  have h1 := C8_popular_cell_coverage ex3 exOut3 (5, 5) (by decide) rfl (by decide)
  have h2 := C8_popular_cell_coverage ex3 exOut3 (0, 0) (by decide) rfl (by decide)
  exact ⟨h1.2 (by decide), (h2.1 (by decide)).1⟩

/-! ## C7: turn variable semantics -/

theorem combos_of_sublist {l s : List Nat} (h : s.Sublist l) :
    ∀ r, s.length = r → s ∈ combos l r := by
  induction h with
  | slnil =>
    intro r hr
    cases r with
    | zero => simp [combos]
    | succ r' => cases hr
  | cons x h ih =>
    intro r hr
    cases r with
    | zero =>
      rw [List.length_eq_zero.1 hr]
      simp [combos]
    | succ r' =>
      exact List.mem_append.2 (Or.inr (ih _ hr))
  | cons₂ x h ih =>
    intro r hr
    cases r with
    | zero => cases hr
    | succ r' =>
      refine List.mem_append.2 (Or.inl ?_)
      exact List.mem_map.2 ⟨_, ih r' (by simpa using hr), rfl⟩

theorem combos_sublist : ∀ (l : List Nat) (r : Nat) (s : List Nat),
    s ∈ combos l r → s.Sublist l := by
  intro l
  induction l with
  | nil =>
    intro r s hs
    cases r with
    | zero =>
      rw [List.mem_singleton.1 hs]
    | succ r' => cases hs
  | cons x xs ih =>
    intro r s hs
    cases r with
    | zero =>
      rw [List.mem_singleton.1 hs]
      exact List.nil_sublist _
    | succ r' =>
      rcases List.mem_append.1 hs with h | h
      · rcases List.mem_map.1 h with ⟨s', hs', rfl⟩
        exact List.Sublist.cons₂ x (ih r' s' hs')
      · exact List.Sublist.cons x (ih (r' + 1) s h)

theorem countTrue_add_filter_not (a : Nat → Bool) (l : List Nat) :
    countTrue a l + (l.filter (fun v => !a v)).length = l.length := by
  induction l with
  | nil => rfl
  | cons v rest ih =>
    unfold countTrue at ih ⊢
    rw [List.countP_cons, List.filter_cons]
    by_cases hv : a v = true
    · rw [if_pos hv, if_neg (by simp [hv])]
      rw [List.length_cons]
      omega
    · rw [if_neg hv, if_pos (by simp [Bool.not_eq_true] at hv; simp [hv])]
      rw [List.length_cons, List.length_cons]
      omega

theorem two_true_of_all_combos (a : Nat → Bool) (l : List Nat)
    (hlen : 2 ≤ l.length)
    (hno : ∀ s ∈ combos l (l.length - 1), ∃ v ∈ s, a v = true) :
    2 ≤ countTrue a l := by
  by_contra hlt
  push_neg at hlt
  have hfl := countTrue_add_filter_not a l
  set falses := l.filter (fun v => !a v) with hfalses
  have hge : l.length - 1 ≤ falses.length := by omega
  set sub := falses.take (l.length - 1) with hsub
  have hslen : sub.length = l.length - 1 := by
    rw [hsub, List.length_take]
    omega
  have hss : sub.Sublist l :=
    List.Sublist.trans (List.take_sublist _ _) (List.filter_sublist l)
  rcases hno sub (combos_of_sublist hss _ hslen) with ⟨v, hv, hvt⟩
  have hvf : v ∈ falses := (List.take_sublist _ _).subset hv
  rcases List.mem_filter.1 hvf with ⟨-, hvq⟩
  rw [hvt] at hvq
  cases hvq

theorem two_of_countP {α : Type} (q : α → Bool) (l : List α) (hnd : l.Nodup)
    (h2 : 2 ≤ l.countP q) :
    ∃ d1, d1 ∈ l ∧ ∃ d2, d2 ∈ l ∧ d1 ≠ d2 ∧ q d1 = true ∧ q d2 = true := by
  induction l with
  | nil => simp [List.countP_nil] at h2
  | cons x rest ih =>
    rw [List.countP_cons] at h2
    rw [List.nodup_cons] at hnd
    by_cases hx : q x = true
    · rw [if_pos hx] at h2
      rcases List.countP_pos_iff.1 (show 0 < List.countP q rest by omega) with ⟨d2, hd2, hq2⟩
      refine ⟨x, List.mem_cons_self _ _, d2, List.mem_cons_of_mem _ hd2, ?_, hx, hq2⟩
      intro he
      exact hnd.1 (he ▸ hd2)
    · rw [if_neg hx] at h2
      simp at h2
      rcases ih hnd.2 h2 with ⟨d1, h1, d2, h2', hne, hq1, hq2⟩
      exact ⟨d1, List.mem_cons_of_mem _ h1, d2, List.mem_cons_of_mem _ h2', hne, hq1, hq2⟩

theorem dirPairs_cover : ∀ d1 d2 : Dir, d1 ≠ d2 →
    (d1, d2) ∈ dirPairs ∨ (d2, d1) ∈ dirPairs := by decide

theorem straight_symm : ∀ d1 d2 : Dir,
    isStraightPair d1 d2 = isStraightPair d2 d1 := by decide

theorem dirs_nodup : DIRS_LIST.Nodup := by decide

theorem tCells_mem (p : Problem) (s t : Int × Int) (x y : Int)
    (hxy : inGrid p x y = true) (hne : ¬((x, y) = s ∨ (x, y) = t)) :
    (x, y) ∈ tCells p s t := by
  unfold tCells
  refine List.mem_filter.2 ⟨(mem_cellList p x y).2 hxy, ?_⟩
  push_neg at hne
  simp [hne.1, hne.2]

theorem turnDef_tl_mem (p : Problem) (k : Nat) (s t : Int × Int) (x y : Int)
    (hk : p.lines.get? k = some (s, t)) (hxy : inGrid p x y = true)
    (hne : ¬((x, y) = s ∨ (x, y) = t)) :
    [-(vid p (VName.Tv k x y) : Int), (vid p (VName.Lv k x y) : Int)] ∈
      allClauses p := by
  have hmem : [-(vid p (VName.Tv k x y) : Int), (vid p (VName.Lv k x y) : Int)] ∈
      turnClauses p := by
    unfold turnClauses
    refine List.mem_flatMap.2 ⟨(k, (s, t)), enum_mem _ _ _ hk, ?_⟩
    dsimp only
    refine List.mem_append.2 (Or.inl ?_)
    unfold turnDefClauses
    refine List.mem_flatMap.2 ⟨(x, y), tCells_mem p s t x y hxy hne, ?_⟩
    simp
  simp [allClauses, List.mem_append, hmem]

theorem turnDef_pair_mem (p : Problem) (k : Nat) (s t : Int × Int) (x y : Int)
    (d1 d2 : Dir) (hk : p.lines.get? k = some (s, t)) (hxy : inGrid p x y = true)
    (hne : ¬((x, y) = s ∨ (x, y) = t)) (hdp : (d1, d2) ∈ dirPairs)
    (hg1 : inGridStep p x y d1 = true) (hg2 : inGridStep p x y d2 = true) :
    (if isStraightPair d1 d2 = true then
      [-(vid p (VName.Lv k x y) : Int), -(vid p (VName.Ev k x y d1) : Int),
       -(vid p (VName.Ev k x y d2) : Int), -(vid p (VName.Tv k x y) : Int)]
    else
      [-(vid p (VName.Lv k x y) : Int), -(vid p (VName.Ev k x y d1) : Int),
       -(vid p (VName.Ev k x y d2) : Int), (vid p (VName.Tv k x y) : Int)]) ∈
      allClauses p := by
  have hchain : ∀ c : List Int,
      c ∈ (if inGridStep p x y d1 = true ∧ inGridStep p x y d2 = true then
        (if isStraightPair d1 d2 = true then
          [[-(vid p (VName.Lv k x y) : Int), -(vid p (VName.Ev k x y d1) : Int),
            -(vid p (VName.Ev k x y d2) : Int), -(vid p (VName.Tv k x y) : Int)]]
        else
          [[-(vid p (VName.Lv k x y) : Int), -(vid p (VName.Ev k x y d1) : Int),
            -(vid p (VName.Ev k x y d2) : Int), (vid p (VName.Tv k x y) : Int)]])
      else []) → c ∈ allClauses p := by
    intro c hc
    have hmem : c ∈ turnClauses p := by
      unfold turnClauses
      refine List.mem_flatMap.2 ⟨(k, (s, t)), enum_mem _ _ _ hk, ?_⟩
      dsimp only
      refine List.mem_append.2 (Or.inl ?_)
      unfold turnDefClauses
      refine List.mem_flatMap.2 ⟨(x, y), tCells_mem p s t x y hxy hne, ?_⟩
      dsimp only
      refine List.mem_append.2 (Or.inr ?_)
      exact List.mem_flatMap.2 ⟨(d1, d2), hdp, hc⟩
    simp [allClauses, List.mem_append, hmem]
  refine hchain _ ?_
  rw [if_pos ⟨hg1, hg2⟩]
  by_cases hsp : isStraightPair d1 d2 = true
  · rw [if_pos hsp, if_pos hsp]
    simp
  · rw [if_neg hsp, if_neg hsp]
    simp

theorem pathCont_under_mem (p : Problem) (k : Nat) (s t : Int × Int) (x y : Int)
    (sub : List Nat) (hk : p.lines.get? k = some (s, t))
    (hxy : inGrid p x y = true) (hne : ¬((x, y) = s ∨ (x, y) = t))
    (hsub : sub ∈ combos (incidentEdgeIds p k x y)
      ((incidentEdgeIds p k x y).length + 1 - 2)) :
    (-(vid p (VName.Lv k x y) : Int) :: sub.map Int.ofNat) ∈ allClauses p := by
  have hmem : (-(vid p (VName.Lv k x y) : Int) :: sub.map Int.ofNat) ∈
      pathContClauses p := by
    unfold pathContClauses
    refine List.mem_flatMap.2 ⟨(k, (s, t)), enum_mem _ _ _ hk, ?_⟩
    dsimp only
    refine List.mem_append.2 (Or.inr ?_)
    refine List.mem_flatMap.2 ⟨(x, y), (mem_cellList p x y).2 hxy, ?_⟩
    dsimp only
    rw [if_neg hne]
    refine List.mem_append.2 (Or.inl ?_)
    unfold exactlyKifL
    refine List.mem_append.2 (Or.inr ?_)
    rw [if_pos (by omega)]
    exact List.mem_map.2 ⟨sub, hsub, rfl⟩
  simp [allClauses, List.mem_append, hmem]

theorem incidentEdgeIds_pos (p : Problem) (k : Nat) (s t : Int × Int) (x y : Int)
    (hk : p.lines.get? k = some (s, t)) (hxy : inGrid p x y = true) :
    ∀ v ∈ incidentEdgeIds p k x y, 1 ≤ v := by
  intro v hv
  unfold incidentEdgeIds at hv
  rcases List.mem_map.1 hv with ⟨d, hd, rfl⟩
  rcases List.mem_filter.1 hd with ⟨-, hdg⟩
  exact vid_pos p _ (ev_mem_allNames p k s t x y d hk hxy hdg)

theorem tv_lookup_iff (p : Problem) (k : Nat) (s t : Int × Int) (x y : Int)
    (hk : p.lines.get? k = some (s, t)) :
    (assocFind (finalEnc p).varToId (VName.Tv k x y)).isSome = true ↔
      (inGrid p x y = true ∧ ¬((x, y) = s ∨ (x, y) = t)) := by
  rw [vid_isSome_iff]
  constructor
  · intro h
    unfold allNames at h
    rcases List.mem_append.1 h with h | h
    · unfold buildNames at h
      rcases List.mem_flatMap.1 h with ⟨ksp, hksp, hin⟩
      obtain ⟨ki, sp⟩ := ksp
      rcases List.mem_flatMap.1 hin with ⟨c, hcell, hname⟩
      unfold cellNames at hname
      rcases List.mem_append.1 hname with hABC | hD
      · rcases List.mem_append.1 hABC with hAB | hC
        · rcases List.mem_append.1 hAB with hA | hB
          · simp at hA
          · by_cases hcond : (c.1, c.2) = sp.1 ∨ (c.1, c.2) = sp.2
            · rw [if_pos hcond] at hB
              cases hB
            · rw [if_neg hcond] at hB
              have heq := List.mem_singleton.1 hB
              have hki : k = ki ∧ x = c.1 ∧ y = c.2 := by
                cases heq
                exact ⟨rfl, rfl, rfl⟩
              obtain ⟨rfl, rfl, rfl⟩ := hki
              have hsp : sp = (s, t) := by
                have hmem := List.mk_mem_enum_iff_getElem?.1 hksp
                have hk2 := hk
                rw [List.get?_eq_getElem?] at hk2
                exact Option.some.inj (hmem.symm.trans hk2)
              subst hsp
              have hcc : (c.1, c.2) = c := rfl
              rw [hcc] at hcond
              refine ⟨?_, ?_⟩
              · have := (mem_cellList p c.1 c.2).1 (by rw [hcc]; exact hcell)
                exact this
              · rw [hcc]
                exact hcond
        · simp at hC
      · rcases List.mem_map.1 hD with ⟨d, -, hEq⟩
        simp at hEq
    · unfold counterNames at h
      rcases List.mem_flatMap.1 h with ⟨ksp, -, hin⟩
      dsimp only at hin
      by_cases h0 : (tCells p ksp.2.1 ksp.2.2).length = 0
      · rw [if_pos h0] at hin
        cases hin
      · rw [if_neg h0] at hin
        by_cases hJ : (tCells p ksp.2.1 ksp.2.2).length ≤ p.J
        · rw [if_pos hJ] at hin
          cases hin
        · rw [if_neg hJ] at hin
          rcases List.mem_flatMap.1 hin with ⟨i, -, hin2⟩
          rcases List.mem_map.1 hin2 with ⟨j, -, hEq⟩
          cases hEq
  · rintro ⟨hxy, hne⟩
    exact tv_mem_allNames p k s t x y hk hxy hne

/-- C7: in every satisfying assignment, the turn variable of line k at a
non-endpoint cell is true iff line k occupies the cell and two distinct
active incident edges form a non-collinear (perpendicular) pair; and the
turn variable of line k exists exactly at the in-grid cells that are not
that line's endpoints. -/
theorem C7_turn_iff_perpendicular (p : Problem) (out : EncOut) (a : Nat → Bool)
    (k : Nat) (s t : Int × Int) (x y : Int)
    (he : encode p = some out) (hsat : satAll a out.clauses)
    (hk : p.lines.get? k = some (s, t))
    (hxy : inGrid p x y = true) (hne : ¬((x, y) = s ∨ (x, y) = t)) :
    (a (vid p (VName.Tv k x y)) = true ↔
      (a (vid p (VName.Lv k x y)) = true ∧
       ∃ d1 d2 : Dir, d1 ≠ d2 ∧
         inGridStep p x y d1 = true ∧ inGridStep p x y d2 = true ∧
         a (vid p (VName.Ev k x y d1)) = true ∧
         a (vid p (VName.Ev k x y d2)) = true ∧
         isStraightPair d1 d2 = false)) ∧
    (∀ x' y', (assocFind (finalEnc p).varToId (VName.Tv k x' y')).isSome = true ↔
      (inGrid p x' y' = true ∧ ¬((x', y') = s ∨ (x', y') = t))) := by
  obtain ⟨hcl, -, -, -⟩ := encode_eq p out he
  have hsatA : ∀ c ∈ allClauses p, clauseSat a c = true := by
    intro c hc
    refine hsat c ?_
    rw [hcl]
    exact hc
  have hTpos : 1 ≤ vid p (VName.Tv k x y) :=
    vid_pos p _ (tv_mem_allNames p k s t x y hk hxy hne)
  have hLpos : 1 ≤ vid p (VName.Lv k x y) :=
    vid_pos p _ (lv_mem_allNames p k s t x y hk hxy)
  refine ⟨⟨?_, ?_⟩, fun x' y' => tv_lookup_iff p k s t x' y' hk⟩
  · -- forward: turn true implies occupied with a perpendicular active pair
    intro hT
    have hL : a (vid p (VName.Lv k x y)) = true :=
      clause_imp1 a _ _ hLpos (hsatA _ (turnDef_tl_mem p k s t x y hk hxy hne)) hT
    refine ⟨hL, ?_⟩
    -- every (n-1)-subset of the incident edges contains a true one
    have hno : ∀ sub ∈ combos (incidentEdgeIds p k x y)
        ((incidentEdgeIds p k x y).length + 1 - 2), ∃ v ∈ sub, a v = true := by
      intro sub hsub
      have hcs := hsatA _ (pathCont_under_mem p k s t x y sub hk hxy hne hsub)
      rcases List.any_eq_true.1 hcs with ⟨lit, hlit, hlt⟩
      rcases List.mem_cons.1 hlit with rfl | hlit2
      · rw [litSat_neg, hL] at hlt
        cases hlt
      · rcases List.mem_map.1 hlit2 with ⟨v, hv, rfl⟩
        have hvpos : 1 ≤ v := incidentEdgeIds_pos p k s t x y hk hxy v
          ((combos_sublist _ _ _ hsub).subset hv)
        have hlt2 : litSat a ((v : Nat) : Int) = true := hlt
        rw [litSat_pos a v hvpos] at hlt2
        exact ⟨v, hv, hlt2⟩
    -- so at least two incident edges are active
    have h2 : 2 ≤ countTrue a (incidentEdgeIds p k x y) := by
      by_cases hlen : 2 ≤ (incidentEdgeIds p k x y).length
      · refine two_true_of_all_combos a _ hlen ?_
        have hr : (incidentEdgeIds p k x y).length + 1 - 2 =
            (incidentEdgeIds p k x y).length - 1 := by omega
        rw [← hr]
        exact hno
      · exfalso
        have hr : (incidentEdgeIds p k x y).length + 1 - 2 = 0 := by omega
        rw [hr] at hno
        rcases hno [] (by simp [combos]) with ⟨v, hv, -⟩
        cases hv
    -- translate to two distinct active directions
    have h2d : 2 ≤ (DIRS_LIST.filter (fun d => inGridStep p x y d)).countP
        (fun d => a (vid p (VName.Ev k x y d))) := by
      unfold countTrue incidentEdgeIds at h2
      rw [List.countP_map] at h2
      exact h2
    rcases two_of_countP _ _ (dirs_nodup.filter _) h2d with
      ⟨d1, hd1, d2, hd2, hne12, hq1, hq2⟩
    have hg1 : inGridStep p x y d1 = true := (List.mem_filter.1 hd1).2
    have hg2 : inGridStep p x y d2 = true := (List.mem_filter.1 hd2).2
    -- the pair cannot be collinear, else the straight clause forces ¬turn
    by_cases hsp : isStraightPair d1 d2 = true
    · exfalso
      rcases dirPairs_cover d1 d2 hne12 with hdp | hdp
      · have hcs := hsatA _ (turnDef_pair_mem p k s t x y d1 d2 hk hxy hne hdp hg1 hg2)
        rw [if_pos hsp] at hcs
        have := clause_imp3_neg a _ _ _ _ hcs hL hq1 hq2
        rw [hT] at this
        cases this
      · have hsp' : isStraightPair d2 d1 = true := by rw [← straight_symm]; exact hsp
        have hcs := hsatA _ (turnDef_pair_mem p k s t x y d2 d1 hk hxy hne hdp hg2 hg1)
        rw [if_pos hsp'] at hcs
        have := clause_imp3_neg a _ _ _ _ hcs hL hq2 hq1
        rw [hT] at this
        cases this
    · exact ⟨d1, d2, hne12, hg1, hg2, hq1, hq2, by simpa using hsp⟩
  · -- backward: occupied with a perpendicular active pair forces turn true
    rintro ⟨hL, d1, d2, hne12, hg1, hg2, he1, he2, hperp⟩
    rcases dirPairs_cover d1 d2 hne12 with hdp | hdp
    · have hcs := hsatA _ (turnDef_pair_mem p k s t x y d1 d2 hk hxy hne hdp hg1 hg2)
      rw [if_neg (by simp [hperp])] at hcs
      exact clause_imp3_pos a _ _ _ _ hTpos hcs hL he1 he2
    · have hcs := hsatA _ (turnDef_pair_mem p k s t x y d2 d1 hk hxy hne hdp hg2 hg1)
      have hperp' : isStraightPair d2 d1 = false := by rw [← straight_symm]; exact hperp
      rw [if_neg (by simp [hperp'])] at hcs
      exact clause_imp3_pos a _ _ _ _ hTpos hcs hL he2 he1

theorem C7_turn_iff_perpendicular_witness :
    (aOf ex1 ex1True (vid ex1 (VName.Tv 0 1 0)) = true ↔
      (aOf ex1 ex1True (vid ex1 (VName.Lv 0 1 0)) = true ∧
       ∃ d1 d2 : Dir, d1 ≠ d2 ∧
         inGridStep ex1 1 0 d1 = true ∧ inGridStep ex1 1 0 d2 = true ∧
         aOf ex1 ex1True (vid ex1 (VName.Ev 0 1 0 d1)) = true ∧
         aOf ex1 ex1True (vid ex1 (VName.Ev 0 1 0 d2)) = true ∧
         isStraightPair d1 d2 = false)) ∧
    (∀ x' y', (assocFind (finalEnc ex1).varToId (VName.Tv 0 x' y')).isSome = true ↔
      (inGrid ex1 x' y' = true ∧ ¬((x', y') = ((0 : Int), (0 : Int)) ∨
        (x', y') = ((2 : Int), (0 : Int))))) :=
  C7_turn_iff_perpendicular ex1 exOut1 (aOf ex1 ex1True) 0 (0, 0) (2, 0) 1 0
    (by decide) (by rw [satAll_iff_satAllB]; decide) (by decide) (by decide) (by decide)

/-! ## C5: the decoder reconstructs unique simple paths -/

theorem getD_eq_getElem {α : Type} (l : List α) (i : Nat) (d : α)
    (h : i < l.length) : l.getD i d = l[i] := by
  simp [List.getD, List.getElem?_eq_getElem h]

theorem cellAt_zero (s : Int × Int) (D : List Dir) : cellAt s D 0 = s := rfl

theorem cellAt_succ (s : Int × Int) (D : List Dir) (i : Nat) (h : i < D.length) :
    cellAt s D (i + 1) = stepCell (cellAt s D i) (D.getD i Dir.R) := by
  unfold cellAt walk
  rw [← List.take_concat_get D i h, List.concat_eq_append, List.foldl_append]
  rw [getD_eq_getElem D i Dir.R h]
  rfl

theorem step_rev (c : Int × Int) (d : Dir) :
    stepCell (stepCell c d) (revDir d) = c := by
  cases d <;> refine Prod.ext ?_ ?_ <;>
    simp [stepCell, dirDx, dirDy, revDir]

theorem cellAt_cons (s : Int × Int) (d : Dir) (ds : List Dir) (i : Nat) :
    cellAt s (d :: ds) (i + 1) = cellAt (stepCell s d) ds i := rfl

theorem mem_pathEdges (k : Nat) :
    ∀ (D : List Dir) (s : Int × Int) (q : Nat × Int × Int × Dir),
      q ∈ pathEdges k s D ↔ ∃ i, i < D.length ∧
        (q = (k, (cellAt s D i).1, (cellAt s D i).2, D.getD i Dir.R) ∨
         q = (k, (cellAt s D (i + 1)).1, (cellAt s D (i + 1)).2,
              revDir (D.getD i Dir.R))) := by
  intro D
  induction D with
  | nil =>
    intro s q
    simp [pathEdges]
  | cons d ds ih =>
    intro s q
    show q ∈ _ :: _ :: pathEdges k (stepCell s d) ds ↔ _
    rw [List.mem_cons, List.mem_cons, ih (stepCell s d) q]
    constructor
    · rintro (rfl | rfl | ⟨i, hi, hq⟩)
      · exact ⟨0, by simp, Or.inl rfl⟩
      · refine ⟨0, by simp, Or.inr ?_⟩
        rw [cellAt_cons]
        rfl
      · refine ⟨i + 1, by simpa using hi, ?_⟩
        rw [cellAt_cons, cellAt_cons]
        exact hq
    · rintro ⟨i, hi, hq⟩
      cases i with
      | zero =>
        rcases hq with rfl | rfl
        · exact Or.inl rfl
        · refine Or.inr (Or.inl ?_)
          rw [cellAt_cons]
          rfl
      | succ i' =>
        refine Or.inr (Or.inr ⟨i', by simpa using hi, ?_⟩)
        rw [cellAt_cons, cellAt_cons] at hq
        exact hq

theorem lookupAdj_addAdj (adj : List ((Int × Int) × List ((Int × Int) × Dir)))
    (c0 c : Int × Int) (e0 e : (Int × Int) × Dir) :
    e ∈ lookupAdj (addAdj adj c0 e0) c ↔
      (c = c0 ∧ e = e0) ∨ e ∈ lookupAdj adj c := by
  induction adj with
  | nil =>
    unfold addAdj lookupAdj
    by_cases hc : c0 = c
    · rw [if_pos hc]
      subst hc
      simp [lookupAdj]
    · rw [if_neg hc]
      simp [lookupAdj]
      exact fun h => absurd h.symm hc
  | cons hd rest ih =>
    obtain ⟨c', es⟩ := hd
    unfold addAdj
    by_cases h0 : c' = c0
    · rw [if_pos h0]
      subst h0
      unfold lookupAdj
      by_cases hc : c' = c
      · rw [if_pos hc, if_pos hc]
        subst hc
        simp
        constructor
        · rintro (h | h)
          · exact Or.inr h
          · exact Or.inl h
        · rintro (h | h)
          · exact Or.inr h
          · exact Or.inl h
      · rw [if_neg hc, if_neg hc]
        constructor
        · exact fun h => Or.inr h
        · rintro (⟨rfl, -⟩ | h)
          · exact absurd rfl hc
          · exact h
    · rw [if_neg h0]
      unfold lookupAdj
      by_cases hc : c' = c
      · rw [if_pos hc, if_pos hc]
        subst hc
        constructor
        · exact fun h => Or.inr h
        · rintro (⟨rfl, -⟩ | h)
          · exact absurd rfl h0
          · exact h
      · rw [if_neg hc, if_neg hc]
        exact ih

theorem lookupAdj_buildAdj_aux (k : Nat) :
    ∀ (L : List (Nat × Int × Int × Dir))
      (adj : List ((Int × Int) × List ((Int × Int) × Dir)))
      (c : Int × Int) (e : (Int × Int) × Dir),
      e ∈ lookupAdj (L.foldl (fun adj q =>
        if q.1 = k then
          addAdj adj (q.2.1, q.2.2.1)
            ((q.2.1 + dirDx q.2.2.2, q.2.2.1 + dirDy q.2.2.2), q.2.2.2)
        else adj) adj) c ↔
        e ∈ lookupAdj adj c ∨
        ∃ q, q ∈ L ∧ q.1 = k ∧ c = (q.2.1, q.2.2.1) ∧
          e = ((q.2.1 + dirDx q.2.2.2, q.2.2.1 + dirDy q.2.2.2), q.2.2.2) := by
  intro L
  induction L with
  | nil =>
    intro adj c e
    simp
  | cons q L ih =>
    intro adj c e
    rw [List.foldl_cons, ih]
    by_cases hq : q.1 = k
    · rw [if_pos hq, lookupAdj_addAdj]
      constructor
      · rintro ((⟨rfl, rfl⟩ | h) | ⟨q', hq', hc⟩)
        · exact Or.inr ⟨q, List.mem_cons_self _ _, hq, rfl, rfl⟩
        · exact Or.inl h
        · exact Or.inr ⟨q', List.mem_cons_of_mem _ hq', hc⟩
      · rintro (h | ⟨q', hq', hk', hc', he'⟩)
        · exact Or.inl (Or.inr h)
        · rcases List.mem_cons.1 hq' with rfl | hq''
          · exact Or.inl (Or.inl ⟨hc', he'⟩)
          · exact Or.inr ⟨q', hq'', hk', hc', he'⟩
    · rw [if_neg hq]
      constructor
      · rintro (h | ⟨q', hq', hc⟩)
        · exact Or.inl h
        · exact Or.inr ⟨q', List.mem_cons_of_mem _ hq', hc⟩
      · rintro (h | ⟨q', hq', hk', hc'⟩)
        · exact Or.inl h
        · rcases List.mem_cons.1 hq' with rfl | hq''
          · exact absurd hk' hq
          · exact Or.inr ⟨q', hq'', hk', hc'⟩

theorem lookupAdj_buildAdj (k : Nat) (eTrue : List (Nat × Int × Int × Dir))
    (c : Int × Int) (e : (Int × Int) × Dir) :
    e ∈ lookupAdj (buildAdj k eTrue) c ↔
      ∃ q, q ∈ eTrue ∧ q.1 = k ∧ c = (q.2.1, q.2.2.1) ∧
        e = ((q.2.1 + dirDx q.2.2.2, q.2.2.1 + dirDy q.2.2.2), q.2.2.2) := by
  unfold buildAdj
  rw [lookupAdj_buildAdj_aux]
  simp [lookupAdj]

theorem bfsStep_skip (path : List Dir) :
    ∀ (ns : List ((Int × Int) × Dir)) (vis : List (Int × Int))
      (q : List ((Int × Int) × List Dir)),
      (∀ e ∈ ns, e.1 ∈ vis) →
      ns.foldl (fun st e =>
        if e.1 ∈ st.1 then st
        else (e.1 :: st.1, st.2 ++ [(e.1, path ++ [e.2])])) (vis, q) = (vis, q) := by
  intro ns
  induction ns with
  | nil => intro vis q h; rfl
  | cons e rest ih =>
    intro vis q h
    rw [List.foldl_cons]
    rw [if_pos (h e (List.mem_cons_self _ _))]
    exact ih vis q (fun e' he' => h e' (List.mem_cons_of_mem _ he'))

theorem bfsStep_eq (visited : List (Int × Int)) (path : List Dir)
    (ns : List ((Int × Int) × Dir)) (new : (Int × Int) × Dir)
    (hns : ∀ e ∈ ns, e = new ∨ e.1 ∈ visited)
    (hmem : new ∈ ns) (hnew : new.1 ∉ visited) :
    bfsStep visited path ns = (new.1 :: visited, [(new.1, path ++ [new.2])]) := by
  unfold bfsStep
  induction ns with
  | nil => cases hmem
  | cons e rest ih =>
    rw [List.foldl_cons]
    by_cases hev : e.1 ∈ visited
    · rw [if_pos hev]
      have hrest : new ∈ rest := by
        rcases List.mem_cons.1 hmem with rfl | h
        · exact absurd hev hnew
        · exact h
      exact ih (fun e' he' => hns e' (List.mem_cons_of_mem _ he')) hrest
    · rw [if_neg hev]
      have henew : e = new := by
        rcases hns e (List.mem_cons_self _ _) with h | h
        · exact h
        · exact absurd h hev
      subst henew
      dsimp only
      rw [List.nil_append]
      refine bfsStep_skip path rest (e.1 :: visited) _ ?_
      intro e' he'
      rcases hns e' (List.mem_cons_of_mem _ he') with rfl | h
      · exact List.mem_cons_self _ _
      · exact List.mem_cons_of_mem _ h

theorem bfsLoop_path_run (adj : List ((Int × Int) × List ((Int × Int) × Dir)))
    (s : Int × Int) (D : List Dir)
    (hadj : ∀ z e, e ∈ lookupAdj adj z ↔ pathAdj s D z e)
    (hinj : ∀ i j, i ≤ D.length → j ≤ D.length →
      cellAt s D i = cellAt s D j → i = j) :
    ∀ (n i : Nat) (visited : List (Int × Int)) (fuel : Nat),
      i + n = D.length →
      (∀ z, z ∈ visited ↔ ∃ j, j ≤ i ∧ z = cellAt s D j) →
      n + 1 ≤ fuel →
      bfsLoop adj (cellAt s D D.length) fuel
        [(cellAt s D i, D.take i)] visited = some D := by
  intro n
  induction n with
  | zero =>
    intro i visited fuel hi hvis hfuel
    have hieq : i = D.length := by omega
    subst hieq
    cases fuel with
    | zero => omega
    | succ f =>
      show (if cellAt s D D.length = cellAt s D D.length
            then some (D.take D.length)
            else bfsLoop adj (cellAt s D D.length) f
              ([] ++ (bfsStep visited (D.take D.length)
                (lookupAdj adj (cellAt s D D.length))).2)
              (bfsStep visited (D.take D.length)
                (lookupAdj adj (cellAt s D D.length))).1) = some D
      rw [if_pos rfl, List.take_length]
  | succ n ih =>
    intro i visited fuel hi hvis hfuel
    have hilt : i < D.length := by omega
    cases fuel with
    | zero => omega
    | succ f =>
      have hneq : ¬(cellAt s D i = cellAt s D D.length) := by
        intro h
        have := hinj i D.length (by omega) (le_refl _) h
        omega
      show (if cellAt s D i = cellAt s D D.length then _
            else bfsLoop adj (cellAt s D D.length) f
              ([] ++ (bfsStep visited (D.take i) (lookupAdj adj (cellAt s D i))).2)
              (bfsStep visited (D.take i) (lookupAdj adj (cellAt s D i))).1) = some D
      rw [if_neg hneq]
      have hstep := bfsStep_eq visited (D.take i) (lookupAdj adj (cellAt s D i))
        (cellAt s D (i + 1), D.getD i Dir.R) ?hns ?hmem ?hnew
      case hns =>
        intro e he
        rcases (hadj _ e).1 he with ⟨j, hj, hcase⟩
        rcases hcase with ⟨hcj, hej⟩ | ⟨hcj, hej⟩
        · have hji : j = i := hinj j i (by omega) (by omega) hcj.symm
          subst hji
          exact Or.inl hej
        · have hji : j + 1 = i := hinj (j + 1) i (by omega) (by omega) hcj.symm
          refine Or.inr ?_
          rw [hej]
          exact (hvis _).2 ⟨j, by omega, rfl⟩
      case hmem =>
        refine (hadj _ _).2 ⟨i, hilt, Or.inl ⟨rfl, rfl⟩⟩
      case hnew =>
        intro h
        rcases (hvis _).1 h with ⟨j, hj, hcj⟩
        have := hinj (i + 1) j (by omega) (by omega) hcj
        omega
      rw [hstep]
      dsimp only
      rw [List.nil_append]
      have htake : D.take i ++ [D.getD i Dir.R] = D.take (i + 1) := by
        rw [getD_eq_getElem D i Dir.R hilt, ← List.concat_eq_append,
          List.take_concat_get]
      rw [htake]
      refine ih (i + 1) (cellAt s D (i + 1) :: visited) f (by omega) ?_ (by omega)
      intro z
      rw [List.mem_cons, hvis z]
      constructor
      · rintro (rfl | ⟨j, hj, rfl⟩)
        · exact ⟨i + 1, le_refl _, rfl⟩
        · exact ⟨j, by omega, rfl⟩
      · rintro ⟨j, hj, rfl⟩
        by_cases hji : j = i + 1
        · subst hji
          exact Or.inl rfl
        · exact Or.inr ⟨j, by omega, rfl⟩

theorem findPath_path (k : Nat) (s t : Int × Int) (D : List Dir)
    (eTrue : List (Nat × Int × Int × Dir))
    (hinj : ∀ i j, i ≤ D.length → j ≤ D.length →
      cellAt s D i = cellAt s D j → i = j)
    (hend : cellAt s D D.length = t)
    (hE1 : ∀ e ∈ eTrue, e.1 = k → e ∈ pathEdges k s D)
    (hE2 : ∀ e ∈ pathEdges k s D, e ∈ eTrue) :
    findPath k s t eTrue = some D := by
  have hadj : ∀ z e, e ∈ lookupAdj (buildAdj k eTrue) z ↔ pathAdj s D z e := by
    intro z e
    rw [lookupAdj_buildAdj]
    constructor
    · rintro ⟨q, hq, hk', hz, he⟩
      rcases (mem_pathEdges k D s q).1 (hE1 q hq hk') with ⟨i, hi, hcase⟩
      rcases hcase with hq2 | hq2
      · refine ⟨i, hi, Or.inl ⟨?_, ?_⟩⟩
        · rw [hz, hq2]
        · rw [he, hq2]
          dsimp only
          have : stepCell (cellAt s D i) (D.getD i Dir.R) = cellAt s D (i + 1) :=
            (cellAt_succ s D i hi).symm
          rw [← this]
          rfl
      · refine ⟨i, hi, Or.inr ⟨?_, ?_⟩⟩
        · rw [hz, hq2]
        · rw [he, hq2]
          dsimp only
          have hrev : stepCell (cellAt s D (i + 1)) (revDir (D.getD i Dir.R)) =
              cellAt s D i := by
            rw [cellAt_succ s D i hi, step_rev]
          rw [← hrev]
          rfl
    · rintro ⟨i, hi, hcase⟩
      rcases hcase with ⟨hz, he⟩ | ⟨hz, he⟩
      · refine ⟨(k, (cellAt s D i).1, (cellAt s D i).2, D.getD i Dir.R),
          hE2 _ ((mem_pathEdges k D s _).2 ⟨i, hi, Or.inl rfl⟩), rfl, ?_, ?_⟩
        · rw [hz]
        · rw [he]
          dsimp only
          have : stepCell (cellAt s D i) (D.getD i Dir.R) = cellAt s D (i + 1) :=
            (cellAt_succ s D i hi).symm
          rw [← this]
          rfl
      · refine ⟨(k, (cellAt s D (i + 1)).1, (cellAt s D (i + 1)).2,
          revDir (D.getD i Dir.R)),
          hE2 _ ((mem_pathEdges k D s _).2 ⟨i, hi, Or.inr rfl⟩), rfl, ?_, ?_⟩
        · rw [hz]
        · rw [he]
          dsimp only
          have hrev : stepCell (cellAt s D (i + 1)) (revDir (D.getD i Dir.R)) =
              cellAt s D i := by
            rw [cellAt_succ s D i hi, step_rev]
          rw [← hrev]
          rfl
  have hlen : D.length ≤ eTrue.length + 1 := by
    cases hD : D.length with
    | zero => omega
    | succ m =>
      -- the forward edges are distinct members of eTrue
      have hfwd : ((List.range D.length).map (fun i =>
          (k, (cellAt s D i).1, (cellAt s D i).2, D.getD i Dir.R))).Nodup := by
        refine List.Nodup.map_on ?_ (List.nodup_range _)
        intro i hi j hj hij
        have h1 : (cellAt s D i).1 = (cellAt s D j).1 := by
          have := congrArg (fun q : Nat × Int × Int × Dir => q.2.1) hij
          exact this
        have h2 : (cellAt s D i).2 = (cellAt s D j).2 := by
          have := congrArg (fun q : Nat × Int × Int × Dir => q.2.2.1) hij
          exact this
        exact hinj i j (by have := List.mem_range.1 hi; omega)
          (by have := List.mem_range.1 hj; omega) (Prod.ext h1 h2)
      have hsub : ∀ q ∈ (List.range D.length).map (fun i =>
          (k, (cellAt s D i).1, (cellAt s D i).2, D.getD i Dir.R)), q ∈ eTrue := by
        intro q hq
        rcases List.mem_map.1 hq with ⟨i, hi, rfl⟩
        exact hE2 _ ((mem_pathEdges k D s _).2
          ⟨i, List.mem_range.1 hi, Or.inl rfl⟩)
      have hcard := List.toFinset_card_le
        (l := (List.range D.length).map (fun i =>
          (k, (cellAt s D i).1, (cellAt s D i).2, D.getD i Dir.R)))
      have hcard2 : ((List.range D.length).map (fun i =>
          (k, (cellAt s D i).1, (cellAt s D i).2, D.getD i Dir.R))).toFinset.card =
          D.length := by
        rw [List.toFinset_card_of_nodup hfwd, List.length_map, List.length_range]
      have hsub2 : ((List.range D.length).map (fun i =>
          (k, (cellAt s D i).1, (cellAt s D i).2, D.getD i Dir.R))).toFinset ⊆
          eTrue.toFinset := by
        intro q hq
        rw [List.mem_toFinset] at hq ⊢
        exact hsub q hq
      have := Finset.card_le_card hsub2
      have := List.toFinset_card_le eTrue
      omega
  unfold findPath
  have hrun := bfsLoop_path_run (buildAdj k eTrue) s D hadj hinj D.length 0 [s]
    (eTrue.length + 2) (by omega) ?_ (by omega)
  · rw [hend] at hrun
    exact hrun
  · intro z
    rw [List.mem_singleton]
    constructor
    · intro hz
      exact ⟨0, le_refl _, by rw [hz, cellAt_zero]⟩
    · rintro ⟨j, hj, hz⟩
      have hj0 : j = 0 := by omega
      subst hj0
      rw [hz, cellAt_zero]

theorem decodeLoop_all (specs : List ((Int × Int) × (Int × Int)))
    (eTrue : List (Nat × Int × Int × Dir)) (paths : Nat → List Dir) :
    ∀ ks : List Nat,
      (∀ k ∈ ks, ∃ sp, specs.get? k = some sp ∧
        findPath k sp.1 sp.2 eTrue = some (paths k)) →
      decodeLoop specs eTrue ks = some (some (ks.map paths)) := by
  intro ks
  induction ks with
  | nil => intro h; rfl
  | cons k ks ih =>
    intro h
    rcases h k (List.mem_cons_self _ _) with ⟨sp, hsp, hfp⟩
    unfold decodeLoop
    rw [hsp]
    dsimp only
    rw [hfp]
    rw [ih (fun k' hk' => h k' (List.mem_cons_of_mem _ hk'))]
    rfl

/-- C5: when the true edge variables form, for every line k, exactly the
reciprocal edge pairs of one simple (no repeated cell) path from line
k's start to its end, the decoder outputs exactly K serialized
direction-token sequences, in original index order 0..K−1, the k-th
being exactly that path's direction sequence. -/
theorem C5_decoder_reconstructs_paths (meta : VarMapMeta)
    (eTrue : List (Nat × Int × Int × Dir)) (paths : Nat → List Dir)
    (hK : meta.K ≤ meta.lines.length)
    (h : ∀ k sp, k < meta.K → meta.lines.get? k = some sp →
      (∀ i, i ≤ (paths k).length → ∀ j, j ≤ (paths k).length →
        cellAt sp.1 (paths k) i = cellAt sp.1 (paths k) j → i = j) ∧
      cellAt sp.1 (paths k) (paths k).length = sp.2 ∧
      (∀ e ∈ eTrue, e.1 = k → e ∈ pathEdges k sp.1 (paths k)) ∧
      (∀ e ∈ pathEdges k sp.1 (paths k), e ∈ eTrue)) :
    decodeCore meta eTrue =
      some (((List.range meta.K).map paths).map serializePath) := by
  have hloop := decodeLoop_all meta.lines eTrue paths (List.range meta.K) ?_
  · unfold decodeCore
    rw [hloop]
  · intro k hk
    have hklt : k < meta.K := List.mem_range.1 hk
    have hklen : k < meta.lines.length := by omega
    refine ⟨meta.lines.get ⟨k, hklen⟩, List.get?_eq_get hklen, ?_⟩
    rcases h k (meta.lines.get ⟨k, hklen⟩) hklt (List.get?_eq_get hklen) with
      ⟨hinj, hend, hE1, hE2⟩
    exact findPath_path k _ _ (paths k) eTrue
      (fun i j h1 h2 => hinj i h1 j h2) hend hE1 hE2

theorem C5_decoder_reconstructs_paths_witness :
    decodeCore exMeta1 (eTrueOf exMeta1.id_to_var ex1Tokens) = some ["R R 0"] := by
  have h := C5_decoder_reconstructs_paths exMeta1
    (eTrueOf exMeta1.id_to_var ex1Tokens) (fun _ => [Dir.R, Dir.R])
    (by decide) ?_
  · rw [h]
    decide
  · intro k sp hk hsp
    have hK1 : exMeta1.K = 1 := by decide
    have hk0 : k = 0 := by omega
    subst hk0
    have hsp0 : exMeta1.lines.get? 0 = some ((0, 0), (2, 0)) := by decide
    rw [hsp0] at hsp
    cases hsp
    refine ⟨by decide, by decide, by decide, by decide⟩

end Metro
